import Mathlib

/-!
Verification development for the Ponchik_bot lore-retrieval engine.

The definitions below are a shallow embedding of `src/services/ai_service.py`
(the retrieval pipeline `retrieve_relevant_lore` together with the module-level
text-normalization helpers and the hand-written location gazetteer) and of the
character parsing / alias index of `src/services/lore_structure.py`.

Modelling conventions:
* Python `str` is Lean `String` (a list of Unicode scalar values); per-character
  predicates (`str.isalnum`, `str.isspace`, `str.lower`, `str.title`) are
  modelled for the alphabet the program actually works with: ASCII letters,
  ASCII digits, and Russian Cyrillic (А-Я, а-я, Ё, ё).  All other characters
  are treated as uncased non-alphanumeric characters.
* Python sets of strings are modelled as duplicate-free `List String` values
  that remember insertion order (Python set iteration order is unspecified;
  where the code renders a set with `str(...)` we render in list order).
* Python numbers are modelled with `ℚ`: the scoring code mixes ints and floats
  (`score *= 1.2`, coverage division); we model the arithmetic exactly over the
  rationals rather than with IEEE rounding.
* The optional NLTK stemmer and the optional pymorphy2 normalizer are modelled
  as `Option (String → String)` parameters, exactly mirroring the
  `if not STEMMER` / `if not MORPH` fallback branches of the source.
* `EXACT_IMPORTANT_KEYWORDS` (loaded at startup from the character lore file,
  which is data, not code) is a parameter of the model.
-/

/-! ## Character-level primitives (Python `str` methods) -/

/-- `c.lower()` for ASCII letters and Russian Cyrillic (identity elsewhere). -/
def pyLower (c : Char) : Char :=
  if 'A' ≤ c ∧ c ≤ 'Z' then Char.ofNat (c.toNat + 32)
  else if 0x410 ≤ c.toNat ∧ c.toNat ≤ 0x42F then Char.ofNat (c.toNat + 32)
  else if c.toNat = 0x401 then Char.ofNat 0x451
  else c

/-- `c.upper()` for ASCII letters and Russian Cyrillic (identity elsewhere). -/
def pyUpper (c : Char) : Char :=
  if 'a' ≤ c ∧ c ≤ 'z' then Char.ofNat (c.toNat - 32)
  else if 0x430 ≤ c.toNat ∧ c.toNat ≤ 0x44F then Char.ofNat (c.toNat - 32)
  else if c.toNat = 0x451 then Char.ofNat 0x401
  else c

/-- `c.isalpha()` limited to the modelled alphabet. -/
def pyIsAlpha (c : Char) : Bool :=
  ('a' ≤ c && c ≤ 'z') || ('A' ≤ c && c ≤ 'Z') ||
  (0x410 ≤ c.toNat && c.toNat ≤ 0x44F) || c.toNat == 0x401 || c.toNat == 0x451

/-- `c.isalnum()` limited to the modelled alphabet. -/
def pyIsAlnum (c : Char) : Bool :=
  pyIsAlpha c || ('0' ≤ c && c ≤ '9')

/-- `c.isspace()` (ASCII whitespace, as produced by the lore files). -/
def pyIsSpace (c : Char) : Bool :=
  c == ' ' || c == '\t' || c == '\n' || c == '\r' ||
  c == Char.ofNat 0x0b || c == Char.ofNat 0x0c

/-- `s.lower()`. -/
def lowerStr (s : String) : String :=
  ⟨s.data.map pyLower⟩

/-! ## Substring and word splitting -/

/-- Does `l` start with `pat`? (`str.startswith`). -/
def isPrefSeq : List Char → List Char → Bool
  | [], _ => true
  | _ :: _, [] => false
  | a :: as, b :: bs => a == b && isPrefSeq as bs

/-- Does `pat` occur contiguously inside `l`? (Python `pat in l`). -/
def containsSeq (pat : List Char) : List Char → Bool
  | [] => isPrefSeq pat []
  | c :: rest => isPrefSeq pat (c :: rest) || containsSeq pat rest

/-- `str.split()` (split on whitespace runs, dropping empty pieces);
`acc` holds the characters of the current word in reverse. -/
def splitWsAux (acc : List Char) : List Char → List (List Char)
  | [] => if acc = [] then [] else [acc.reverse]
  | c :: cs =>
    if pyIsSpace c then
      (if acc = [] then splitWsAux [] cs else acc.reverse :: splitWsAux [] cs)
    else splitWsAux (c :: acc) cs

/-- `s.split()` as a list of strings. -/
def splitWs (s : String) : List String :=
  (splitWsAux [] s.data).map String.mk

/-! ## Stop words, stems, tokens, lemmas (`ai_service.py` lines 22-176) -/

/-- `STOP_WORDS` (ai_service.py line 22). -/
def STOP_WORDS : List String :=
  ["а", "в", "и", "к", "на", "о", "об", "от", "по", "под", "при", "с", "со",
   "у", "же", "ли", "бы"]

/-- `get_stemmed_words(text)` (ai_service.py line 26): lowercase, keep only
alphanumeric/space characters, split, drop stop words, stem each word when a
stemmer is available.  Result is a set (duplicate-free list). -/
def getStemmedWords (stemmer : Option (String → String)) (text : String) :
    List String :=
  let clean := (lowerStr text).data.filter (fun c => pyIsAlnum c || pyIsSpace c)
  let words := (splitWsAux [] clean).map String.mk
  let kept := words.filter (fun w => ¬ w ∈ STOP_WORDS)
  match stemmer with
  | none => kept.dedup
  | some f => (kept.map f).dedup

/-- `get_tokens(text)` (ai_service.py line 148): lowercase alphanumeric/space
characters, replace every other character by a space, split, drop stop words.
Result is an order-preserving list (duplicates kept). -/
def getTokens (text : String) : List String :=
  let clean := text.data.map
    (fun c => if pyIsAlnum c || pyIsSpace c then pyLower c else ' ')
  let words := (splitWsAux [] clean).map String.mk
  words.filter (fun w => ¬ w ∈ STOP_WORDS)

/-- `get_lemmas(text)` (ai_service.py line 162): the set of normal forms of the
tokens; without pymorphy2 the tokens themselves. -/
def getLemmas (morph : Option (String → String)) (text : String) :
    List String :=
  let ts := getTokens text
  match morph with
  | none => ts.dedup
  | some f => (ts.map f).dedup

/-! ## Gazetteer and startup configuration -/

/-- `KNOWN_LOCATIONS` (ai_service.py line 36), transcribed verbatim. -/
def KNOWN_LOCATIONS : List String :=
  ["кордон", "свалка", "агропром", "нии агропром", "подземелья агропрома",
   "бар", "бар 100 рентген", "темная долина", "тёмная долина",
   "лаборатория x-18", "x-18", "x18", "дикая территория", "росток",
   "завод росток", "янтарь", "x-16", "x16", "лаборатория x-16",
   "армейские склады", "радар", "бункер управления выжигателем мозгов",
   "лаборатория x-10", "x-10", "x10", "припять", "саркофаг", "чаэс",
   "станция"]

/-- Startup configuration of the module: the optional stemmer backend, the
optional morphological normalizer, and `EXACT_IMPORTANT_KEYWORDS` — the set of
lowercased character names loaded from the character lore file (data, not
code; empty when that file is absent). -/
structure Config where
  stemmer : Option (String → String)
  morph : Option (String → String)
  exactImportant : List String

/-- `EXACT_IMPORTANT_LEMMAS` (ai_service.py lines 207-215). -/
def exactImportantLemmas (cfg : Config) : List String :=
  match cfg.morph with
  | none => cfg.exactImportant.dedup
  | some f => (cfg.exactImportant.map f).dedup

/-- `STEMMED_LOCATIONS` (ai_service.py line 220): each known location paired
with the set of stems of its words. -/
def stemmedLocations (cfg : Config) : List (String × List String) :=
  KNOWN_LOCATIONS.map (fun loc => (loc, getStemmedWords cfg.stemmer loc))

/-! ## Chunks -/

/-- One lore chunk as built by the corpus loader (ai_service.py lines 249-266):
the originating file, the paragraph text, the location tags parsed from the
episode header (empty for general chunks) and the precomputed lemma set. -/
structure Chunk where
  source : String
  content : String
  locations : List String
  lemmas : List String
deriving DecidableEq

/-- Python set equality for string sets modelled as lists. -/
def setEqv (a b : List String) : Bool :=
  a.all (fun x => x ∈ b) && b.all (fun x => x ∈ a)

/-- Python `==` on chunk dictionaries (used by `chunk_data in EPISODE_CHUNKS`):
source and content compare as strings, locations and lemmas as sets. -/
def chunkEqv (a b : Chunk) : Bool :=
  a.source == b.source && a.content == b.content &&
  setEqv a.locations b.locations && setEqv a.lemmas b.lemmas

/-- `chunk_data in EPISODE_CHUNKS` (ai_service.py line 414). -/
def isEpisodeChunk (eps : List Chunk) (c : Chunk) : Bool :=
  eps.any (chunkEqv c)

/-! ## Python `str(set)` rendering (used by the location bonus, line 406) -/

/-- Python `repr` for the strings at hand: quote with a single quote unless the
string contains one (and no double quote), escaping the backslash and the
chosen quote character.  (Control-character escapes are not modelled; the
strings involved are single lines of text.) -/
def pyReprStr (s : String) : String :=
  let sq := Char.ofNat 39
  let dq := Char.ofNat 34
  let bs := Char.ofNat 92
  let useDq := s.data.contains sq && ¬ s.data.contains dq
  let q := if useDq then dq else sq
  let body := s.data.flatMap (fun c => if c == bs || c == q then [bs, c] else [c])
  ⟨q :: body ++ [q]⟩

/-- The element reprs joined with `", "`. -/
def reprJoin : List String → String
  | [] => ""
  | [x] => pyReprStr x
  | x :: xs => pyReprStr x ++ ", " ++ reprJoin xs

/-- Python `str` of a set of strings: `set()` when empty, otherwise the reprs
of its elements in braces (we render in list order). -/
def pyStrSet (l : List String) : String :=
  if l = [] then "set()"
  else ⟨Char.ofNat 123 :: (reprJoin l).data ++ [Char.ofNat 125]⟩

/-! ## Whole-word regex matching (`re.search(r"\b<name>\b", text)`, line 396) -/

/-- Regex word character (`\w`): alphanumeric or underscore. -/
def isWordChar (c : Char) : Bool :=
  pyIsAlnum c || c == '_'

/-- Is an optional character a word character (`none` = string edge)? -/
def optWord : Option Char → Bool
  | none => false
  | some c => isWordChar c

/-- A `\b` boundary holds between two (optional) characters iff exactly one
side is a word character. -/
def wbAt (prev next : Option Char) : Bool :=
  optWord prev != optWord next

/-- Does `pat` match at the start of `txt`, with `prev` the character that
precedes this position, respecting `\b` on both sides? -/
def wwHere (pat : List Char) (prev : Option Char) (txt : List Char) : Bool :=
  isPrefSeq pat txt &&
  wbAt prev txt.head? &&
  wbAt (match pat.getLast? with | none => prev | some c => some c)
       (txt.drop pat.length).head?

/-- `re.search` of `\b` + escaped pattern + `\b`: try every position. -/
def wwSearchAux (pat : List Char) (prev : Option Char) : List Char → Bool
  | [] => wwHere pat prev []
  | c :: rest => wwHere pat prev (c :: rest) || wwSearchAux pat (some c) rest

/-- Whole-word occurrence of `pat` in `txt`. -/
def wwSearch (pat txt : List Char) : Bool :=
  wwSearchAux pat none txt

/-! ## Per-query context (`retrieve_relevant_lore` lines 288-381) -/

/-- All query-derived data computed before the per-chunk scoring loop. -/
structure QueryCtx where
  queryLower : String
  queryStems : List String
  queryLocations : List String
  queryTokens : List String
  queryLemmas : List String
  exactTokenMatches : List String
  exactLemmaMatches : List String
  queryKeywords : List String

/-- Location detection (lines 297-311): exact substring of the lowercased
query against the gazetteer, falling back to a stem-subset match. -/
def detectLocations (cfg : Config) (queryLower : String)
    (queryStems : List String) : List String :=
  let pass1 := KNOWN_LOCATIONS.filter
    (fun loc => containsSeq (lowerStr loc).data queryLower.data)
  if pass1 ≠ [] then pass1
  else ((stemmedLocations cfg).filter
    (fun p => p.2.all (fun s => s ∈ queryStems))).map (fun p => p.1)

/-- Line 338-342: the query stems that are not part of any known location's
stem set. -/
def baseKeywords (cfg : Config) (q : String) : List String :=
  (getStemmedWords cfg.stemmer q).filter
    (fun s => ¬ (stemmedLocations cfg).any (fun p => s ∈ p.2))

/-- Line 349: query tokens that are exact important terms. -/
def exactTokenMatches0 (cfg : Config) (q : String) : List String :=
  ((getTokens q).filter (fun t => t ∈ cfg.exactImportant)).dedup

/-- Line 350: query lemmas that are important-term lemmas. -/
def exactLemmaMatchesOf (cfg : Config) (q : String) : List String :=
  (getLemmas cfg.morph q).filter (fun l => l ∈ exactImportantLemmas cfg)

/-- Lines 354-371: important terms recognized through their stem (with the
stemmer) or through substring / token containment (without it). -/
def exactStemMatches (cfg : Config) (q : String) : List String :=
  match cfg.stemmer with
  | some f => cfg.exactImportant.filter
      (fun e => f e ∈ getStemmedWords cfg.stemmer q)
  | none => cfg.exactImportant.filter
      (fun e => containsSeq e.data (lowerStr q).data || e ∈ getTokens q)

/-- Lines 373-375: the token matches merged with the stem matches. -/
def exactTokenMatchesOf (cfg : Config) (q : String) : List String :=
  (exactTokenMatches0 cfg q ++ exactStemMatches cfg q).dedup

/-- Lines 379-381: the keyword set augmented with the stems of every matched
important term. -/
def queryKeywordsOf (cfg : Config) (q : String) : List String :=
  (baseKeywords cfg q ++
    (exactTokenMatchesOf cfg q ++ exactLemmaMatchesOf cfg q).flatMap
      (fun n => getStemmedWords cfg.stemmer n)).dedup

/-- Lines 337-381: keyword set (location-word stems removed), exact token /
lemma / stem matches of important terms, and the augmented keyword set. -/
def mkCtx (cfg : Config) (q : String) : QueryCtx :=
  ⟨lowerStr q, getStemmedWords cfg.stemmer q,
   detectLocations cfg (lowerStr q) (getStemmedWords cfg.stemmer q),
   getTokens q, getLemmas cfg.morph q,
   exactTokenMatchesOf cfg q, exactLemmaMatchesOf cfg q,
   queryKeywordsOf cfg q⟩

/-! ## Per-chunk scoring (lines 383-415) -/

/-- Line 388: `matched_keywords = query_keywords.intersection(chunk_stems)`. -/
def matchedKeywords (cfg : Config) (ctx : QueryCtx) (c : Chunk) : List String :=
  ctx.queryKeywords.filter (fun s => s ∈ getStemmedWords cfg.stemmer c.content)

/-- The integer accumulation of lines 389-407 (in Python the score stays an
`int` until the coverage multiplication): the stem-overlap base score, the
exact token / lemma bonuses, and the location bonus. -/
def scoreBaseN (cfg : Config) (ctx : QueryCtx) (c : Chunk) : ℕ :=
  ((matchedKeywords cfg ctx c).map (fun s => 2 + s.length)).sum
  + (if ctx.exactTokenMatches ≠ [] ∨ ctx.exactLemmaMatches ≠ [] then
      20 * (ctx.exactTokenMatches.filter
              (fun e => wwSearch e.data (lowerStr c.content).data)).length
      + 20 * (ctx.exactLemmaMatches.filter (fun l => l ∈ c.lemmas)).length
    else 0)
  + (if ctx.queryLocations ≠ [] ∧ ctx.queryLocations.any
        (fun loc => containsSeq (lowerStr loc).data
                      (lowerStr (pyStrSet c.locations)).data) then 10
    else 0)

/-- Line 410: `coverage = len(matched_keywords) / len(query_keywords)`
(0 when the keyword set is empty). -/
def coverageOf (cfg : Config) (ctx : QueryCtx) (c : Chunk) : ℚ :=
  if ctx.queryKeywords ≠ [] then
    ((matchedKeywords cfg ctx c).length : ℚ) / (ctx.queryKeywords.length : ℚ)
  else 0

/-- The relevance score of one candidate chunk before the episodic priority
multiplier: the integer base multiplied by `1 + coverage` (line 411). -/
def chunkScorePre (cfg : Config) (ctx : QueryCtx) (c : Chunk) : ℚ :=
  (scoreBaseN cfg ctx c : ℚ) * (1 + coverageOf cfg ctx c)

/-- The full score including the 20% episodic priority bonus (line 413). -/
def chunkScore (cfg : Config) (eps : List Chunk) (ctx : QueryCtx) (c : Chunk) :
    ℚ :=
  let s := chunkScorePre cfg ctx c
  if isEpisodeChunk eps c then s * (6 / 5) else s

/-! ## Candidate pool, scoring, ranking, result (lines 313-450) -/

/-- The episode chunks whose tagged locations contain a detected query
location (lines 319-323). -/
def locFilter (cfg : Config) (eps : List Chunk) (q : String) : List Chunk :=
  let ctx := mkCtx cfg q
  eps.filter (fun c => ctx.queryLocations.any
    (fun loc => lowerStr loc ∈ c.locations.map lowerStr))

/-- The candidate chunk pool (lines 313-332): the location-filtered episode
chunks when a location was detected and the filter is non-empty, otherwise
every chunk. -/
def candidatePool (cfg : Config) (eps gens : List Chunk) (q : String) :
    List Chunk :=
  let ctx := mkCtx cfg q
  let filtered := if ctx.queryLocations ≠ [] then locFilter cfg eps q else []
  if filtered = [] then eps ++ gens else filtered

/-- Every candidate paired with its score, keeping only positive scores
(lines 383-427). -/
def scoredChunks (cfg : Config) (eps gens : List Chunk) (q : String) :
    List (Chunk × ℚ) :=
  let ctx := mkCtx cfg q
  ((candidatePool cfg eps gens q).map
    (fun c => (c, chunkScore cfg eps ctx c))).filter (fun p => 0 < p.2)

/-- Stable descending insertion: the new element goes before the first entry
whose score it reaches, so earlier elements win ties. -/
def insertDesc (x : Chunk × ℚ) : List (Chunk × ℚ) → List (Chunk × ℚ)
  | [] => [x]
  | y :: ys => if y.2 ≤ x.2 then x :: y :: ys else y :: insertDesc x ys

/-- Stable sort by descending score, the semantics of Python
`list.sort(key=lambda x: x['score'], reverse=True)` (line 434). -/
def sortDesc : List (Chunk × ℚ) → List (Chunk × ℚ)
  | [] => []
  | x :: xs => insertDesc x (sortDesc xs)

/-- The scored candidates in ranked order. -/
def rankedChunks (cfg : Config) (eps gens : List Chunk) (q : String) :
    List (Chunk × ℚ) :=
  sortDesc (scoredChunks cfg eps gens q)

/-- The fragment separator of line 447. -/
def FRAGMENT_SEP : String := "\n\n---\n\n"

/-- `retrieve_relevant_lore(user_query)` (lines 277-450) over an explicitly
passed corpus (`EPISODE_CHUNKS`, `GENERAL_CHUNKS`). -/
def retrieveRelevantLore (cfg : Config) (eps gens : List Chunk) (q : String) :
    String × Nat :=
  if eps = [] ∧ gens = [] then ("", 0)
  else if (mkCtx cfg q).queryStems = [] then ("", 0)
  else
    let scored := scoredChunks cfg eps gens q
    if scored = [] then ("", 0)
    else
      let top := (sortDesc scored).take 1
      if top = [] then ("", 0)
      else (String.intercalate FRAGMENT_SEP (top.map (fun p => p.1.content)),
            top.length)

/-! ## Spec-side score formulas (for claim C1, a refinement comparison)

`c1SpecScore` is written from the words of claim C1 / spec §4.4 (NOT from the
source): base score over matched stems with location-word stems excluded from
the query side, 20 points per exact important-term query token found as a
whole-word match in the chunk text, 20 points per important-term query lemma
found in the chunk's lemma set, a 10-point bonus when a detected query
location is ONE OF the chunk's tagged locations (the spec says the sets
"intersect"), all multiplied by `1 + coverage`. -/
def c1QueryKeywords (cfg : Config) (ctx : QueryCtx) : List String :=
  ctx.queryStems.filter
    (fun s => ¬ (stemmedLocations cfg).any (fun p => s ∈ p.2))

/-- The matched stems of the C1 formula: the claim's keyword set intersected
with the chunk's stem set. -/
def c1Matched (cfg : Config) (ctx : QueryCtx) (c : Chunk) : List String :=
  (c1QueryKeywords cfg ctx).filter
    (fun s => s ∈ getStemmedWords cfg.stemmer c.content)

/-- The integer part of the C1 formula, with the location bonus read as the
claim/spec words say: 10 points when a detected query location is one of the
chunk's tagged locations. -/
def c1SpecBaseN (cfg : Config) (ctx : QueryCtx) (c : Chunk) : ℕ :=
  ((c1Matched cfg ctx c).map (fun s => 2 + s.length)).sum
  + 20 * (((ctx.queryTokens.filter (fun t => t ∈ cfg.exactImportant)).dedup.filter
            (fun e => wwSearch e.data (lowerStr c.content).data)).length)
  + 20 * (((ctx.queryLemmas.filter (fun l => l ∈ exactImportantLemmas cfg)).filter
            (fun l => l ∈ c.lemmas)).length)
  + (if ctx.queryLocations.any
        (fun loc => lowerStr loc ∈ c.locations.map lowerStr) then 10 else 0)

def c1SpecScore (cfg : Config) (ctx : QueryCtx) (c : Chunk) : ℚ :=
  (c1SpecBaseN cfg ctx c : ℚ) *
    (1 + (if c1QueryKeywords cfg ctx ≠ [] then
            ((c1Matched cfg ctx c).length : ℚ) /
              ((c1QueryKeywords cfg ctx).length : ℚ)
          else 0))

/-- The integer part of the amended C1 formula: the 10-point location bonus
fires when a detected query location occurs (lowercased) as a substring of the
Python `str(...)` rendering of the chunk's tagged location set — which is what
line 406 of the source actually tests. -/
def c1SpecBaseAmendedN (cfg : Config) (ctx : QueryCtx) (c : Chunk) : ℕ :=
  ((c1Matched cfg ctx c).map (fun s => 2 + s.length)).sum
  + 20 * (((ctx.queryTokens.filter (fun t => t ∈ cfg.exactImportant)).dedup.filter
            (fun e => wwSearch e.data (lowerStr c.content).data)).length)
  + 20 * (((ctx.queryLemmas.filter (fun l => l ∈ exactImportantLemmas cfg)).filter
            (fun l => l ∈ c.lemmas)).length)
  + (if ctx.queryLocations.any
        (fun loc => containsSeq (lowerStr loc).data
                      (lowerStr (pyStrSet c.locations)).data) then 10 else 0)

/-- The amended C1 formula. -/
def c1SpecScoreAmended (cfg : Config) (ctx : QueryCtx) (c : Chunk) : ℚ :=
  (c1SpecBaseAmendedN cfg ctx c : ℚ) *
    (1 + (if c1QueryKeywords cfg ctx ≠ [] then
            ((c1Matched cfg ctx c).length : ℚ) /
              ((c1QueryKeywords cfg ctx).length : ℚ)
          else 0))

/-! ## Character records and the alias index (`lore_structure.py`) -/

/-- `str.strip()`: drop whitespace from both ends. -/
def pyStrip (s : String) : String :=
  ⟨((s.data.dropWhile pyIsSpace).reverse.dropWhile pyIsSpace).reverse⟩

/-- `s.rstrip('.')`: drop trailing dots. -/
def pyRstripDots (s : String) : String :=
  ⟨(s.data.reverse.dropWhile (fun c => c == '.')).reverse⟩

/-- `s.title()` for the modelled alphabet: uppercase every alphabetic
character that follows a non-alphabetic one, lowercase the rest.  `prevAlpha`
says whether the previous character was alphabetic. -/
def pyTitleAux (prevAlpha : Bool) : List Char → List Char
  | [] => []
  | c :: cs =>
    if pyIsAlpha c then
      (if prevAlpha then pyLower c else pyUpper c) :: pyTitleAux true cs
    else c :: pyTitleAux false cs

/-- `s.title()`. -/
def pyTitle (s : String) : String :=
  ⟨pyTitleAux false s.data⟩

/-- `text.split(':', 1)`: the parts before and after the first colon, or
`none` when there is no colon (`if ':' not in text: return`). -/
def splitFirstColon : List Char → Option (List Char × List Char)
  | [] => none
  | c :: cs =>
    if c == ':' then some ([], cs)
    else match splitFirstColon cs with
         | none => none
         | some (a, b) => some (c :: a, b)

/-- `s.split(',')` (keeps empty pieces). -/
def splitCommaAux (acc : List Char) : List Char → List (List Char)
  | [] => [acc.reverse]
  | c :: cs =>
    if c == ',' then acc.reverse :: splitCommaAux [] cs
    else splitCommaAux (c :: acc) cs

/-- A parsed character record (`Character` dataclass, lore_structure.py
line 20; only the fields `_parse_character_entry` fills are modelled). -/
structure PChar where
  name : String
  aliases : List String
  description : String
  relationship : String
deriving DecidableEq

/-- The mutable parser state: `self.characters` and
`self.char_aliases_index`, both Python dicts (insertion-ordered maps). -/
structure CharState where
  characters : List (String × PChar)
  aliasIndex : List (String × String)

/-- Python dict lookup. -/
def dictGet {α : Type} : List (String × α) → String → Option α
  | [], _ => none
  | (k, v) :: d, key => if k == key then some v else dictGet d key

/-- Python dict assignment `d[k] = v`: update in place if the key exists,
append otherwise. -/
def dictInsert {α : Type} (k : String) (v : α) (d : List (String × α)) :
    List (String × α) :=
  if d.any (fun p => p.1 == k) then
    d.map (fun p => if p.1 == k then (k, v) else p)
  else d ++ [(k, v)]

/-- `_parse_character_entry` (lore_structure.py lines 298-346), parsing phase:
the part before the first colon is a comma-separated name list (first name,
title-cased, is canonical; the rest, lowercased, are aliases), the part after
it the description.  The relationship-extraction regex of lines 319-330 is
abstracted as the parameter `relExtract`, which maps the stripped description
to the `(relationship, cleaned description)` pair; the claims under
verification do not depend on it.  Returns the canonical name, the alias set
and the record, or `none` when the entry is skipped. -/
def parseEntryData (relExtract : String → String × String) (text : String) :
    Option (String × List String × PChar) :=
  match splitFirstColon text.data with
  | none => none
  | some (namesPart, descFull) =>
    let raws := ((splitCommaAux [] namesPart).map
      (fun w => pyStrip ⟨w⟩)).filter (fun n => n ≠ "")
    match raws with
    | [] => none
    | n0 :: rest =>
      let canonical := pyTitle n0
      let aliases := (rest.map lowerStr).dedup
      let desc0 := pyRstripDots (pyStrip ⟨descFull⟩)
      let rd := relExtract desc0
      some (canonical, aliases, ⟨canonical, aliases, rd.2, rd.1⟩)

/-- The index keys an entry registers: its canonical key followed by its
aliases (empty when the entry is skipped). -/
def entryKeys (relExtract : String → String × String) (text : String) :
    List String :=
  match parseEntryData relExtract text with
  | none => []
  | some (canonical, aliases, _) => lowerStr canonical :: aliases

/-- The state update of `_parse_character_entry` (lines 332-344):
`self.characters[canonical_key] = character`, then
`self.char_aliases_index[canonical_key] = canonical_key` and one assignment
per alias. -/
def parseCharacterEntry (relExtract : String → String × String)
    (text : String) (st : CharState) : CharState :=
  match parseEntryData relExtract text with
  | none => st
  | some (canonical, aliases, ch) =>
    let ck := lowerStr canonical
    ⟨dictInsert ck ch st.characters,
     aliases.foldl (fun d a => dictInsert a ck d) (dictInsert ck ck st.aliasIndex)⟩

/-- Parsing a sequence of character entries starting from the empty state. -/
def parseEntries (relExtract : String → String × String) (ts : List String) :
    CharState :=
  ts.foldl (fun st t => parseCharacterEntry relExtract t st) ⟨[], []⟩

/-- `find_character(name)` (lore_structure.py lines 609-615). -/
def findCharacter (st : CharState) (name : String) : Option PChar :=
  match dictGet st.aliasIndex (pyStrip (lowerStr name)) with
  | some key => dictGet st.characters key
  | none => none

/-- A relationship extractor that extracts nothing (the behaviour of the
regex of lines 321-330 on any description that does not mention Ponchik's
relationship); used to instantiate concrete scenarios. -/
def relNone : String → String × String := fun d => ("", d)

/-! ## Concrete fixtures used by counterexamples and witnesses -/

/-- The startup configuration with neither NLTK nor pymorphy2 installed and no
character file: the explicit fallback path of the source (lines 13-15,
158-160, 199-200). -/
def cfg0 : Config := ⟨none, none, []⟩

/-- Episode chunk of the C4 scenario, as the loader builds it from an episode
file headed `Локация: Кордон`. -/
def epKordon : Chunk :=
  ⟨"episodes/kordon.txt", "На Кордоне тихо.", ["кордон"],
   getLemmas none "На Кордоне тихо."⟩

/-- General chunk of the C4 scenario. -/
def genZona : Chunk :=
  ⟨"zona.txt", "Зона полна опасностей.", [], getLemmas none "Зона полна опасностей."⟩

/-- Episode chunk tagged with the location `бар 100 рентген` whose text shares
no keyword with the query `бар` (C1 counterexample). -/
def cBar : Chunk :=
  ⟨"episodes/bar.txt", "зона", ["бар 100 рентген"], getLemmas none "зона"⟩

/-- General chunk containing the word `бар` (C3 counterexample). -/
def gBar : Chunk := ⟨"g.txt", "тут бар", [], getLemmas none "тут бар"⟩

/-- General chunk containing the word `привет` (C3 amended witness). -/
def gPrivet : Chunk := ⟨"g.txt", "привет мир", [], getLemmas none "привет мир"⟩

/-- Episode chunk with content `зона` (C6 counterexample). -/
def ceZona : Chunk := ⟨"episodes/a.txt", "зона", [], getLemmas none "зона"⟩

/-- General chunk identical to `ceZona` except for its source. -/
def cgZona : Chunk := ⟨"b.txt", "зона", [], getLemmas none "зона"⟩

/-! ## The loader's paragraph splitter (ai_service.py lines 249-253, 262-266)

Narrative files are cut on the literal separator `"\n\n"`; every piece is
stripped and empty pieces are dropped.  This is what guarantees that loaded
chunks are non-empty and never contain a blank line. -/

/-- `content.split('\n\n')`: left-to-right scan on the two-newline separator,
keeping empty pieces (they are filtered below). -/
def splitParAux (acc : List Char) : List Char → List (List Char)
  | [] => [acc.reverse]
  | [c] => [(c :: acc).reverse]
  | c :: c2 :: cs =>
    if c = '\n' ∧ c2 = '\n' then acc.reverse :: splitParAux [] cs
    else splitParAux (c :: acc) (c2 :: cs)

/-- The chunk texts the loader derives from one narrative file's content. -/
def splitChunks (content : String) : List String :=
  ((splitParAux [] content.data).map (fun p => pyStrip ⟨p⟩)).filter
    (fun c => c ≠ "")

/-- The candidates whose integer score part is positive; the chunks appearing
in `scoredChunks` (proved below: the score is positive iff its integer part
is). -/
def positiveCandidates (cfg : Config) (eps gens : List Chunk) (q : String) :
    List Chunk :=
  (candidatePool cfg eps gens q).filter
    (fun c => decide (0 < scoreBaseN cfg (mkCtx cfg q) c))

/-! ## Theorems: helper lemmas first, then one theorem per claim (with
witnesses and counterexamples as required). -/

theorem coverageOf_nonneg (cfg : Config) (ctx : QueryCtx) (c : Chunk) :
    0 ≤ coverageOf cfg ctx c := by
  unfold coverageOf
  split
  · exact div_nonneg (Nat.cast_nonneg _) (Nat.cast_nonneg _)
  · exact le_refl 0

theorem one_add_coverage_pos (cfg : Config) (ctx : QueryCtx) (c : Chunk) :
    0 < 1 + coverageOf cfg ctx c :=
  lt_of_lt_of_le one_pos (le_add_of_nonneg_right (coverageOf_nonneg cfg ctx c))

theorem chunkScorePre_nonneg (cfg : Config) (ctx : QueryCtx) (c : Chunk) :
    0 ≤ chunkScorePre cfg ctx c :=
  mul_nonneg (Nat.cast_nonneg _) (le_of_lt (one_add_coverage_pos cfg ctx c))

theorem chunkScorePre_pos_iff (cfg : Config) (ctx : QueryCtx) (c : Chunk) :
    0 < chunkScorePre cfg ctx c ↔ 0 < scoreBaseN cfg ctx c := by
  unfold chunkScorePre
  rw [mul_pos_iff_of_pos_right (one_add_coverage_pos cfg ctx c)]
  exact Nat.cast_pos

theorem chunkScore_pos_iff (cfg : Config) (eps : List Chunk) (ctx : QueryCtx)
    (c : Chunk) :
    0 < chunkScore cfg eps ctx c ↔ 0 < scoreBaseN cfg ctx c := by
  unfold chunkScore
  split
  · rw [mul_pos_iff_of_pos_right (by norm_num : (0 : ℚ) < 6 / 5)]
    exact chunkScorePre_pos_iff cfg ctx c
  · exact chunkScorePre_pos_iff cfg ctx c

theorem scoredChunks_eq_map (cfg : Config) (eps gens : List Chunk)
    (q : String) :
    scoredChunks cfg eps gens q =
      (positiveCandidates cfg eps gens q).map
        (fun c => (c, chunkScore cfg eps (mkCtx cfg q) c)) := by
  unfold scoredChunks positiveCandidates
  rw [List.filter_map]
  congr 1
  apply List.filter_congr
  intro c _
  simp only [Function.comp_apply, decide_eq_decide]
  exact chunkScore_pos_iff cfg eps (mkCtx cfg q) c

theorem mem_insertDesc (x y : Chunk × ℚ) (l : List (Chunk × ℚ)) :
    y ∈ insertDesc x l ↔ y = x ∨ y ∈ l := by
  induction l with
  | nil => simp [insertDesc]
  | cons z zs ih =>
    unfold insertDesc
    split
    · simp
    · simp only [List.mem_cons, ih]
      tauto

theorem length_insertDesc (x : Chunk × ℚ) (l : List (Chunk × ℚ)) :
    (insertDesc x l).length = l.length + 1 := by
  induction l with
  | nil => simp [insertDesc]
  | cons z zs ih =>
    unfold insertDesc
    split
    · simp
    · simp [ih]

theorem mem_sortDesc (y : Chunk × ℚ) (l : List (Chunk × ℚ)) :
    y ∈ sortDesc l ↔ y ∈ l := by
  induction l with
  | nil => simp [sortDesc]
  | cons x xs ih =>
    unfold sortDesc
    rw [mem_insertDesc, ih]
    simp

theorem length_sortDesc (l : List (Chunk × ℚ)) :
    (sortDesc l).length = l.length := by
  induction l with
  | nil => simp [sortDesc]
  | cons x xs ih =>
    unfold sortDesc
    rw [length_insertDesc, ih]
    simp

theorem pairwise_insertDesc (x : Chunk × ℚ) (l : List (Chunk × ℚ))
    (h : l.Pairwise (fun a b => b.2 ≤ a.2)) :
    (insertDesc x l).Pairwise (fun a b => b.2 ≤ a.2) := by
  induction l with
  | nil => simp [insertDesc]
  | cons z zs ih =>
    rw [List.pairwise_cons] at h
    unfold insertDesc
    split
    · rename_i hle
      rw [List.pairwise_cons]
      constructor
      · intro y hy
        rcases List.mem_cons.mp hy with hyz | hyzs
        · subst hyz; exact hle
        · exact le_trans (h.1 y hyzs) hle
      · exact List.pairwise_cons.mpr h
    · rename_i hgt
      rw [List.pairwise_cons]
      constructor
      · intro y hy
        rcases (mem_insertDesc x y zs).mp hy with hyx | hyzs
        · subst hyx; exact le_of_not_le hgt
        · exact h.1 y hyzs
      · exact ih h.2

theorem pairwise_sortDesc (l : List (Chunk × ℚ)) :
    (sortDesc l).Pairwise (fun a b => b.2 ≤ a.2) := by
  induction l with
  | nil => simp [sortDesc]
  | cons x xs ih =>
    unfold sortDesc
    exact pairwise_insertDesc x (sortDesc xs) ih

theorem intercalate_single (s a : String) : String.intercalate s [a] = a := by
  simp [String.intercalate, String.intercalate.go]

theorem retrieve_of_single (cfg : Config) (eps gens : List Chunk) (q : String)
    (c0 : Chunk)
    (h0 : ¬ (eps = [] ∧ gens = []))
    (h1 : (mkCtx cfg q).queryStems ≠ [])
    (h2 : positiveCandidates cfg eps gens q = [c0]) :
    retrieveRelevantLore cfg eps gens q = (c0.content, 1) := by
  unfold retrieveRelevantLore
  rw [if_neg h0, if_neg h1]
  have hs : scoredChunks cfg eps gens q =
      [(c0, chunkScore cfg eps (mkCtx cfg q) c0)] := by
    rw [scoredChunks_eq_map, h2]
    rfl
  rw [hs]
  simp only [List.cons_ne_self]
  rw [if_neg (by simp)]
  simp only [sortDesc, insertDesc, List.take]
  rw [if_neg (by simp)]
  simp [intercalate_single]

theorem retrieve_of_no_positive (cfg : Config) (eps gens : List Chunk)
    (q : String)
    (h2 : positiveCandidates cfg eps gens q = []) :
    retrieveRelevantLore cfg eps gens q = ("", 0) := by
  unfold retrieveRelevantLore
  split
  · rfl
  · split
    · rfl
    · have hs : scoredChunks cfg eps gens q = [] := by
        rw [scoredChunks_eq_map, h2]
        rfl
      rw [hs]
      simp

theorem nodup_getStemmedWords (st : Option (String → String)) (text : String) :
    (getStemmedWords st text).Nodup := by
  unfold getStemmedWords
  cases st
  · exact List.nodup_dedup _
  · exact List.nodup_dedup _

theorem queryKeywords_of_no_exact (cfg : Config) (q : String)
    (hT : exactTokenMatchesOf cfg q = [])
    (hL : exactLemmaMatchesOf cfg q = []) :
    queryKeywordsOf cfg q = baseKeywords cfg q := by
  unfold queryKeywordsOf
  rw [hT, hL]
  simp only [List.append_nil, List.flatMap_nil, List.append_nil]
  exact List.dedup_eq_self.mpr
    (List.Nodup.filter _ (nodup_getStemmedWords cfg.stemmer q))

/-- Claim C4 (confirmed): for the concrete corpus of one episode chunk tagged
`кордон` with text `На Кордоне тихо.` and one general chunk
`Зона полна опасностей.`, the query `расскажи про Кордон` selects the episode
chunk and returns fragment count 1 with the context `На Кордоне тихо.`. -/
theorem claim_C4 :
    retrieveRelevantLore cfg0 [epKordon] [genZona] "расскажи про Кордон" =
      ("На Кордоне тихо.", 1) :=
  retrieve_of_single cfg0 [epKordon] [genZona] "расскажи про Кордон" epKordon
    (by decide) (by decide) (by decide)

/-- Claim C7 (confirmed): `retrieve_relevant_lore` returns `("", 0)` for every
corpus when the query's stem set is empty (empty, whitespace-only or
stop-word-only queries), and for every query when the corpus is empty; being a
total function, neither case raises an error. -/
theorem claim_C7 (cfg : Config) (eps gens : List Chunk) (q : String) :
    (eps = [] ∧ gens = [] → retrieveRelevantLore cfg eps gens q = ("", 0)) ∧
    (getStemmedWords cfg.stemmer q = [] →
      retrieveRelevantLore cfg eps gens q = ("", 0)) := by
  constructor
  · intro h
    unfold retrieveRelevantLore
    rw [if_pos h]
  · intro h
    unfold retrieveRelevantLore
    split
    · rfl
    · rw [if_pos (show (mkCtx cfg q).queryStems = [] from h)]

/-- Witness for C7: the empty corpus with a real query, and a non-empty corpus
with the stop-word-only query `и на у` (whose stem set is empty, like the
whitespace-only query), both return `("", 0)`. -/
theorem claim_C7_witness :
    retrieveRelevantLore cfg0 [] [] "кордон" = ("", 0) ∧
    retrieveRelevantLore cfg0 [epKordon] [genZona] "и на у" = ("", 0) ∧
    getStemmedWords cfg0.stemmer "и на у" = [] ∧
    getStemmedWords cfg0.stemmer "   " = [] :=
  ⟨(claim_C7 cfg0 [] [] "кордон").1 ⟨rfl, rfl⟩,
   (claim_C7 cfg0 [epKordon] [genZona] "и на у").2 (by decide),
   by decide, by decide⟩

/-- Claim C3 (corrected), counterexample: the query `бар` has exactly one
non-stopword term, the general chunk `тут бар` contains it, yet the call
returns the empty context `("", 0)` — because `бар` is a known location, its
stem is excluded from the keyword set, and no episode chunk carries the
location.  This contradicts the claim that the returned context is non-empty
and contains that chunk's content. -/
theorem claim_C3_counterexample :
    (getTokens "бар").dedup = ["бар"] ∧
    containsSeq "бар".data gBar.content.data = true ∧
    retrieveRelevantLore cfg0 [] [gBar] "бар" = ("", 0) :=
  ⟨by decide, by decide, retrieve_of_no_positive cfg0 [] [gBar] "бар" (by decide)⟩

/-- Claim C1 (corrected), counterexample: for the query `бар` and the episode
chunk `cBar` tagged `бар 100 рентген`, the code's score (before the episodic
multiplier) is 10 — the location bonus fires because `бар` is a substring of
`str({'бар 100 рентген'})` — while the claim's formula, whose location bonus
requires the detected location to be one of the chunk's tagged locations
(the spec says the sets "intersect"), yields 0.  The full score is 12 ≠ 0. -/
theorem claim_C1_counterexample :
    chunkScorePre cfg0 (mkCtx cfg0 "бар") cBar = 10 ∧
    chunkScore cfg0 [cBar] (mkCtx cfg0 "бар") cBar = 12 ∧
    c1SpecScore cfg0 (mkCtx cfg0 "бар") cBar = 0 := by
  have hB : scoreBaseN cfg0 (mkCtx cfg0 "бар") cBar = 10 := by decide
  have hk : (mkCtx cfg0 "бар").queryKeywords = [] := by decide
  have hpre : chunkScorePre cfg0 (mkCtx cfg0 "бар") cBar = 10 := by
    unfold chunkScorePre coverageOf
    rw [hB, hk]
    norm_num
  refine ⟨hpre, ?_, ?_⟩
  · unfold chunkScore
    rw [if_pos (by decide)]
    rw [hpre]
    norm_num
  · have hB2 : c1SpecBaseN cfg0 (mkCtx cfg0 "бар") cBar = 0 := by decide
    unfold c1SpecScore
    rw [hB2]
    norm_num

/-- Claim C1 (corrected), amended statement: for every candidate chunk, when
the query produces no exact important-term matches (by token, lemma, stem or
substring), the relevance score before the episodic priority multiplier equals
the claimed formula — sum over matched stems (query stems with location-word
stems excluded, intersected with the chunk's stems) of `2 + stem length`, plus
the 20-point exact bonuses (here zero), plus a 10-point bonus when a detected
query location occurs, lowercased, as a substring of the Python string
rendering of the chunk's tagged location set (rather than requiring set
intersection), all multiplied by `1 + coverage`, where coverage is over the
query stems with location-word stems excluded. -/
theorem claim_C1_amended (cfg : Config) (q : String) (c : Chunk)
    (hT : (mkCtx cfg q).exactTokenMatches = [])
    (hL : (mkCtx cfg q).exactLemmaMatches = []) :
    chunkScorePre cfg (mkCtx cfg q) c = c1SpecScoreAmended cfg (mkCtx cfg q) c := by
  have hq : (mkCtx cfg q).queryKeywords = c1QueryKeywords cfg (mkCtx cfg q) :=
    queryKeywords_of_no_exact cfg q hT hL
  have happ : exactTokenMatches0 cfg q ++ exactStemMatches cfg q = [] :=
    (List.dedup_eq_nil _).mp hT
  have htok0 : ((mkCtx cfg q).queryTokens.filter
      (fun t => t ∈ cfg.exactImportant)).dedup = [] :=
    (List.append_eq_nil.mp happ).1
  have hlem0 : (mkCtx cfg q).queryLemmas.filter
      (fun l => l ∈ exactImportantLemmas cfg) = [] := hL
  have hmatched : matchedKeywords cfg (mkCtx cfg q) c =
      c1Matched cfg (mkCtx cfg q) c := by
    unfold matchedKeywords c1Matched
    rw [hq]
  unfold chunkScorePre c1SpecScoreAmended scoreBaseN c1SpecBaseAmendedN
    coverageOf
  rw [hq, hmatched, hT, hL, htok0, hlem0]
  simp only [List.filter_nil, List.length_nil, Nat.mul_zero, ne_eq,
    not_true_eq_false, false_or, if_neg (by simp : ¬ ¬ ([] : List String) = [])]
  rcases hloc : (mkCtx cfg q).queryLocations with _ | ⟨a, as⟩
  · simp
  · simp

/-- Witness for the amended C1: concrete instance with the no-backend
configuration, the query `привет` (no exact matches) and the chunk
`gPrivet`. -/
theorem claim_C1_amended_witness :
    chunkScorePre cfg0 (mkCtx cfg0 "привет") gPrivet =
      c1SpecScoreAmended cfg0 (mkCtx cfg0 "привет") gPrivet :=
  claim_C1_amended cfg0 "привет" gPrivet (by decide) (by decide)

/-- Claim C6 (corrected), counterexample: `ceZona` (episodic) and `cgZona`
(general) are identical except for their source, yet for the query `привет`
both score 0, so the episodic chunk does not score higher, and neither chunk
is ranked at all (scores of 0 are discarded). -/
theorem claim_C6_counterexample :
    ceZona.content = cgZona.content ∧
    ceZona.locations = cgZona.locations ∧
    ceZona.lemmas = cgZona.lemmas ∧
    ceZona.source ≠ cgZona.source ∧
    isEpisodeChunk [ceZona] ceZona = true ∧
    isEpisodeChunk [ceZona] cgZona = false ∧
    chunkScore cfg0 [ceZona] (mkCtx cfg0 "привет") ceZona =
      chunkScore cfg0 [ceZona] (mkCtx cfg0 "привет") cgZona := by
  have h1 : scoreBaseN cfg0 (mkCtx cfg0 "привет") ceZona = 0 := by decide
  have h2 : scoreBaseN cfg0 (mkCtx cfg0 "привет") cgZona = 0 := by decide
  refine ⟨rfl, rfl, rfl, by decide, by decide, by decide, ?_⟩
  unfold chunkScore chunkScorePre
  rw [h1, h2]
  simp

theorem scoreBaseN_congr (cfg : Config) (ctx : QueryCtx) (a b : Chunk)
    (hc : a.content = b.content) (hl : a.locations = b.locations)
    (hm : a.lemmas = b.lemmas) :
    scoreBaseN cfg ctx a = scoreBaseN cfg ctx b := by
  unfold scoreBaseN matchedKeywords
  rw [hc, hl, hm]

theorem chunkScorePre_congr (cfg : Config) (ctx : QueryCtx) (a b : Chunk)
    (hc : a.content = b.content) (hl : a.locations = b.locations)
    (hm : a.lemmas = b.lemmas) :
    chunkScorePre cfg ctx a = chunkScorePre cfg ctx b := by
  unfold chunkScorePre coverageOf matchedKeywords
  rw [hc, scoreBaseN_congr cfg ctx a b hc hl hm]

/-- Claim C6 (corrected), amended statement: an episodic chunk identical to a
general chunk except for its source scores exactly 6/5 of the general chunk's
score, hence strictly more whenever the general score is positive (at score 0
they tie); and when both are candidates and the shared raw score is positive,
the episodic chunk is ranked strictly before the general one in the sorted
scored list. -/
theorem claim_C6_amended (cfg : Config) (eps gens : List Chunk) (q : String)
    (ce cg : Chunk)
    (hcont : ce.content = cg.content)
    (hloc : ce.locations = cg.locations)
    (hlem : ce.lemmas = cg.lemmas)
    (hE : isEpisodeChunk eps ce = true)
    (hG : isEpisodeChunk eps cg = false) :
    chunkScore cfg eps (mkCtx cfg q) ce =
      (6 / 5) * chunkScore cfg eps (mkCtx cfg q) cg ∧
    (0 < chunkScore cfg eps (mkCtx cfg q) cg →
      chunkScore cfg eps (mkCtx cfg q) cg <
        chunkScore cfg eps (mkCtx cfg q) ce) ∧
    (ce ∈ candidatePool cfg eps gens q → cg ∈ candidatePool cfg eps gens q →
      0 < chunkScore cfg eps (mkCtx cfg q) cg →
      ∃ i j : ℕ, i < j ∧
        (rankedChunks cfg eps gens q).get? i =
          some (ce, chunkScore cfg eps (mkCtx cfg q) ce) ∧
        (rankedChunks cfg eps gens q).get? j =
          some (cg, chunkScore cfg eps (mkCtx cfg q) cg)) := by
  have hpre : chunkScorePre cfg (mkCtx cfg q) ce =
      chunkScorePre cfg (mkCtx cfg q) cg :=
    chunkScorePre_congr cfg (mkCtx cfg q) ce cg hcont hloc hlem
  have hsce : chunkScore cfg eps (mkCtx cfg q) ce =
      chunkScorePre cfg (mkCtx cfg q) cg * (6 / 5) := by
    unfold chunkScore
    rw [hE, hpre]
    simp
  have hscg : chunkScore cfg eps (mkCtx cfg q) cg =
      chunkScorePre cfg (mkCtx cfg q) cg := by
    unfold chunkScore
    rw [hG]
    simp
  have heq : chunkScore cfg eps (mkCtx cfg q) ce =
      (6 / 5) * chunkScore cfg eps (mkCtx cfg q) cg := by
    rw [hsce, hscg, mul_comm]
  have hstrict : 0 < chunkScore cfg eps (mkCtx cfg q) cg →
      chunkScore cfg eps (mkCtx cfg q) cg <
        chunkScore cfg eps (mkCtx cfg q) ce := by
    intro h
    rw [heq]
    nlinarith [h]
  refine ⟨heq, hstrict, ?_⟩
  intro hpe hpg hpos
  have hBg : 0 < scoreBaseN cfg (mkCtx cfg q) cg :=
    (chunkScore_pos_iff cfg eps (mkCtx cfg q) cg).mp hpos
  have hBe : 0 < scoreBaseN cfg (mkCtx cfg q) ce := by
    rw [scoreBaseN_congr cfg (mkCtx cfg q) ce cg hcont hloc hlem]
    exact hBg
  have hmem_e : (ce, chunkScore cfg eps (mkCtx cfg q) ce) ∈
      rankedChunks cfg eps gens q := by
    unfold rankedChunks
    rw [mem_sortDesc, scoredChunks_eq_map]
    exact List.mem_map_of_mem _
      (List.mem_filter.mpr ⟨hpe, decide_eq_true hBe⟩)
  have hmem_g : (cg, chunkScore cfg eps (mkCtx cfg q) cg) ∈
      rankedChunks cfg eps gens q := by
    unfold rankedChunks
    rw [mem_sortDesc, scoredChunks_eq_map]
    exact List.mem_map_of_mem _
      (List.mem_filter.mpr ⟨hpg, decide_eq_true hBg⟩)
  unfold rankedChunks at hmem_e hmem_g
  obtain ⟨i, hi⟩ := List.mem_iff_get?.mp hmem_e
  obtain ⟨j, hj⟩ := List.mem_iff_get?.mp hmem_g
  have hlt : chunkScore cfg eps (mkCtx cfg q) cg <
      chunkScore cfg eps (mkCtx cfg q) ce := hstrict hpos
  rcases lt_trichotomy i j with h | h | h
  · exact ⟨i, j, h, hi, hj⟩
  · exfalso
    subst h
    rw [hi] at hj
    have : chunkScore cfg eps (mkCtx cfg q) ce =
        chunkScore cfg eps (mkCtx cfg q) cg := by
      have := Option.some.inj hj
      exact congrArg Prod.snd this
    exact absurd this (ne_of_gt hlt)
  · exfalso
    have hp := pairwise_sortDesc (scoredChunks cfg eps gens q)
    rw [List.pairwise_iff_get] at hp
    obtain ⟨hjl, hjg⟩ := List.get?_eq_some.mp hj
    obtain ⟨hil, hig⟩ := List.get?_eq_some.mp hi
    have hph := hp ⟨j, hjl⟩ ⟨i, hil⟩ h
    rw [hjg, hig] at hph
    exact absurd hph (not_le.mpr hlt)

/-- Witness for the amended C6: two chunks with content `зона`, identical
except for their source, under the query `зона`: the episodic copy scores 6/5
of the general copy, strictly more, and is ranked before it. -/
theorem claim_C6_amended_witness :
    chunkScore cfg0 [ceZona] (mkCtx cfg0 "зона") ceZona =
      (6 / 5) * chunkScore cfg0 [ceZona] (mkCtx cfg0 "зона") cgZona ∧
    (0 < chunkScore cfg0 [ceZona] (mkCtx cfg0 "зона") cgZona →
      chunkScore cfg0 [ceZona] (mkCtx cfg0 "зона") cgZona <
        chunkScore cfg0 [ceZona] (mkCtx cfg0 "зона") ceZona) ∧
    (ceZona ∈ candidatePool cfg0 [ceZona] [cgZona] "зона" →
      cgZona ∈ candidatePool cfg0 [ceZona] [cgZona] "зона" →
      0 < chunkScore cfg0 [ceZona] (mkCtx cfg0 "зона") cgZona →
      ∃ i j : ℕ, i < j ∧
        (rankedChunks cfg0 [ceZona] [cgZona] "зона").get? i =
          some (ceZona, chunkScore cfg0 [ceZona] (mkCtx cfg0 "зона") ceZona) ∧
        (rankedChunks cfg0 [ceZona] [cgZona] "зона").get? j =
          some (cgZona, chunkScore cfg0 [ceZona] (mkCtx cfg0 "зона") cgZona)) :=
  claim_C6_amended cfg0 [ceZona] [cgZona] "зона" ceZona cgZona rfl rfl rfl
    (by decide) (by decide)

theorem isPrefSeq_iff (p l : List Char) :
    isPrefSeq p l = true ↔ ∃ t, l = p ++ t := by
  induction p generalizing l with
  | nil => simp [isPrefSeq]
  | cons a as ih =>
    cases l with
    | nil =>
      simp [isPrefSeq]
    | cons b bs =>
      simp only [isPrefSeq, Bool.and_eq_true, beq_iff_eq, ih]
      constructor
      · rintro ⟨rfl, t, rfl⟩
        exact ⟨t, rfl⟩
      · rintro ⟨t, ht⟩
        injection ht with h1 h2
        exact ⟨h1.symm, t, h2⟩

theorem containsSeq_iff (pat l : List Char) :
    containsSeq pat l = true ↔ ∃ u v, l = u ++ pat ++ v := by
  induction l with
  | nil =>
    simp only [containsSeq, isPrefSeq_iff]
    constructor
    · rintro ⟨t, ht⟩
      exact ⟨[], t, ht⟩
    · rintro ⟨u, v, huv⟩
      rcases List.append_eq_nil.mp (List.append_eq_nil.mp huv.symm).1 with ⟨_, h2⟩
      exact ⟨v, by simp_all⟩
  | cons c rest ih =>
    simp only [containsSeq, Bool.or_eq_true, isPrefSeq_iff, ih]
    constructor
    · rintro (⟨t, ht⟩ | ⟨u, v, huv⟩)
      · exact ⟨[], t, by simp [ht]⟩
      · exact ⟨c :: u, v, by simp [huv]⟩
    · rintro ⟨u, v, huv⟩
      cases u with
      | nil => exact Or.inl ⟨v, by simpa using huv⟩
      | cons x xs =>
        injection huv with h1 h2
        exact Or.inr ⟨xs, v, h2⟩

theorem noSpecial_of_lower (s : String)
    (h : ∀ c ∈ (lowerStr s).data,
      c ≠ Char.ofNat 39 ∧ c ≠ Char.ofNat 34 ∧ c ≠ Char.ofNat 92) :
    ∀ c ∈ s.data,
      c ≠ Char.ofNat 39 ∧ c ≠ Char.ofNat 34 ∧ c ≠ Char.ofNat 92 := by
  intro c hc
  have hmem : pyLower c ∈ (lowerStr s).data := by
    unfold lowerStr
    exact List.mem_map_of_mem pyLower hc
  have h2 := h (pyLower c) hmem
  refine ⟨?_, ?_, ?_⟩ <;> rintro rfl
  · exact h2.1 (by decide)
  · exact h2.2.1 (by decide)
  · exact h2.2.2 (by decide)

theorem flatMap_escape_id (l : List Char)
    (h : ∀ c ∈ l, c ≠ Char.ofNat 39 ∧ c ≠ Char.ofNat 92) :
    l.flatMap (fun c => if c == Char.ofNat 92 || c == Char.ofNat 39 then
      [Char.ofNat 92, c] else [c]) = l := by
  induction l with
  | nil => rfl
  | cons c cs ih =>
    have hc := h c (List.mem_cons_self c cs)
    rw [List.flatMap_cons, if_neg (by simp [hc.1, hc.2])]
    rw [ih (fun x hx => h x (List.mem_cons_of_mem c hx))]
    rfl

theorem pyReprStr_plain (s : String)
    (h : ∀ c ∈ s.data,
      c ≠ Char.ofNat 39 ∧ c ≠ Char.ofNat 34 ∧ c ≠ Char.ofNat 92) :
    (pyReprStr s).data = Char.ofNat 39 :: s.data ++ [Char.ofNat 39] := by
  unfold pyReprStr
  have hsq : s.data.contains (Char.ofNat 39) = false := by
    simpa using fun hx => (h _ hx).1 rfl
  have hbody := flatMap_escape_id s.data
    (fun c hc => ⟨(h c hc).1, (h c hc).2.2⟩)
  simp only [hsq, Bool.false_and, if_neg (by simp : ¬ (false = true))]
  simpa using hbody

theorem reprJoin_mem_infix (a : String) (l : List String) (h : a ∈ l) :
    ∃ u v, (reprJoin l).data = u ++ (pyReprStr a).data ++ v := by
  induction l with
  | nil => simp at h
  | cons x xs ih =>
    cases xs with
    | nil =>
      rcases List.mem_singleton.mp h with rfl
      exact ⟨[], [], by simp [reprJoin]⟩
    | cons y ys =>
      rcases List.mem_cons.mp h with rfl | hmem
      · refine ⟨[], (", " ++ reprJoin (y :: ys)).data, ?_⟩
        show (pyReprStr a ++ ", " ++ reprJoin (y :: ys)).data = _
        simp
      · obtain ⟨u, v, huv⟩ := ih hmem
        refine ⟨(pyReprStr x ++ ", ").data ++ u, v, ?_⟩
        show (pyReprStr x ++ ", " ++ reprJoin (y :: ys)).data = _
        simp [huv]

theorem pyStrSet_mem_infix (a : String) (l : List String) (h : a ∈ l) :
    ∃ u v, (pyStrSet l).data = u ++ (pyReprStr a).data ++ v := by
  obtain ⟨u, v, huv⟩ := reprJoin_mem_infix a l h
  have hne : l ≠ [] := List.ne_nil_of_mem h
  unfold pyStrSet
  rw [if_neg hne]
  exact ⟨Char.ofNat 123 :: u, v ++ [Char.ofNat 125], by simp [huv]⟩

theorem locBonus_of_member (loc cl : String) (locs : List String)
    (hcl : cl ∈ locs) (heq : lowerStr loc = lowerStr cl)
    (hplain : ∀ c ∈ (lowerStr loc).data,
      c ≠ Char.ofNat 39 ∧ c ≠ Char.ofNat 34 ∧ c ≠ Char.ofNat 92) :
    containsSeq (lowerStr loc).data (lowerStr (pyStrSet locs)).data = true := by
  have hplain_cl : ∀ c ∈ (lowerStr cl).data,
      c ≠ Char.ofNat 39 ∧ c ≠ Char.ofNat 34 ∧ c ≠ Char.ofNat 92 := heq ▸ hplain
  have hplain_cl2 := noSpecial_of_lower cl hplain_cl
  have hrepr := pyReprStr_plain cl hplain_cl2
  obtain ⟨u, v, huv⟩ := pyStrSet_mem_infix cl locs hcl
  rw [containsSeq_iff]
  refine ⟨List.map pyLower u ++ [Char.ofNat 39],
          Char.ofNat 39 :: List.map pyLower v, ?_⟩
  rw [heq]
  show ((pyStrSet locs).data.map pyLower) = _ ++ (cl.data.map pyLower) ++ _
  rw [huv, hrepr]
  simp [show pyLower (Char.ofNat 39) = Char.ofNat 39 from by decide]

theorem detectLocations_subset (cfg : Config) (ql : String)
    (qs : List String) (loc : String)
    (h : loc ∈ detectLocations cfg ql qs) : loc ∈ KNOWN_LOCATIONS := by
  unfold detectLocations at h
  simp only [] at h
  split at h
  · exact (List.mem_filter.mp h).1
  · obtain ⟨p, hp, hploc⟩ := List.mem_map.mp h
    have := (List.mem_filter.mp hp).1
    unfold stemmedLocations at this
    obtain ⟨x, hx, hxp⟩ := List.mem_map.mp this
    subst hxp
    subst hploc
    exact hx

theorem knownLocations_plain :
    ∀ loc ∈ KNOWN_LOCATIONS, ∀ c ∈ (lowerStr loc).data,
      c ≠ Char.ofNat 39 ∧ c ≠ Char.ofNat 34 ∧ c ≠ Char.ofNat 92 := by
  decide

theorem scoreBaseN_ge_ten_of_locMatch (cfg : Config) (q : String) (c : Chunk)
    (h : ((mkCtx cfg q).queryLocations.any
      (fun loc => lowerStr loc ∈ c.locations.map lowerStr)) = true) :
    10 ≤ scoreBaseN cfg (mkCtx cfg q) c := by
  obtain ⟨loc, hloc, hmatch⟩ := List.any_eq_true.mp h
  have hmatch2 : lowerStr loc ∈ c.locations.map lowerStr := by
    simpa using hmatch
  obtain ⟨cl, hcl, hcleq⟩ := List.mem_map.mp hmatch2
  have hknown : loc ∈ KNOWN_LOCATIONS := detectLocations_subset cfg _ _ loc hloc
  have hbonus := locBonus_of_member loc cl c.locations hcl hcleq.symm
    (knownLocations_plain loc hknown)
  have hguard : ((mkCtx cfg q).queryLocations ≠ [] ∧
      ((mkCtx cfg q).queryLocations.any
        (fun l => containsSeq (lowerStr l).data
          (lowerStr (pyStrSet c.locations)).data)) = true) := by
    refine ⟨List.ne_nil_of_mem hloc, ?_⟩
    exact List.any_eq_true.mpr ⟨loc, hloc, by simpa using hbonus⟩
  unfold scoreBaseN
  rw [if_pos hguard]
  omega

theorem retrieve_count_of_positive (cfg : Config) (eps gens : List Chunk)
    (q : String)
    (h0 : ¬ (eps = [] ∧ gens = []))
    (h1 : (mkCtx cfg q).queryStems ≠ [])
    (h2 : positiveCandidates cfg eps gens q ≠ []) :
    (retrieveRelevantLore cfg eps gens q).2 = 1 := by
  have hsne : scoredChunks cfg eps gens q ≠ [] := by
    rw [scoredChunks_eq_map]
    intro hmap
    exact h2 (List.map_eq_nil_iff.mp hmap)
  have hlen : ((sortDesc (scoredChunks cfg eps gens q)).take 1).length = 1 := by
    rw [List.length_take, length_sortDesc]
    have := List.length_pos.mpr hsne
    omega
  have htne : (sortDesc (scoredChunks cfg eps gens q)).take 1 ≠ [] := by
    intro hx
    rw [hx] at hlen
    simp at hlen
  unfold retrieveRelevantLore
  rw [if_neg h0, if_neg h1]
  simp only [if_neg hsne, if_neg htne, hlen]

theorem candidatePool_of_no_locations (cfg : Config) (eps gens : List Chunk)
    (q : String) (hql : (mkCtx cfg q).queryLocations = []) :
    candidatePool cfg eps gens q = eps ++ gens := by
  unfold candidatePool
  simp [hql]

theorem candidatePool_of_filter_empty (cfg : Config) (eps gens : List Chunk)
    (q : String) (hf : locFilter cfg eps q = []) :
    candidatePool cfg eps gens q = eps ++ gens := by
  unfold candidatePool
  simp [hf]

theorem candidatePool_of_filter_nonempty (cfg : Config) (eps gens : List Chunk)
    (q : String) (hql : (mkCtx cfg q).queryLocations ≠ [])
    (hf : locFilter cfg eps q ≠ []) :
    candidatePool cfg eps gens q = locFilter cfg eps q := by
  unfold candidatePool
  simp only []
  rw [if_pos hql, if_neg hf]

/-- Claim C2 (confirmed): whenever the query survives normalization and some
chunk anywhere in the corpus would receive a positive score, the call returns
a fragment count of at least 1; and when locations are detected but no episode
chunk's tagged locations intersect them, the candidate pool falls back to the
full pool of all episode and general chunks.  (The key fact: every chunk kept
by the location filter also earns the 10-point location bonus, so a non-empty
filtered pool always produces a result.) -/
theorem claim_C2 (cfg : Config) (eps gens : List Chunk) (q : String)
    (h1 : (mkCtx cfg q).queryStems ≠ [])
    (h2 : ∃ c ∈ eps ++ gens, 0 < chunkScore cfg eps (mkCtx cfg q) c) :
    1 ≤ (retrieveRelevantLore cfg eps gens q).2 ∧
    ((mkCtx cfg q).queryLocations ≠ [] → locFilter cfg eps q = [] →
      candidatePool cfg eps gens q = eps ++ gens) := by
  obtain ⟨c, hc, hpos⟩ := h2
  have h0 : ¬ (eps = [] ∧ gens = []) := by
    rintro ⟨rfl, rfl⟩
    simp at hc
  refine ⟨?_, fun _ hf => candidatePool_of_filter_empty cfg eps gens q hf⟩
  have hpc : positiveCandidates cfg eps gens q ≠ [] := by
    by_cases hql : (mkCtx cfg q).queryLocations = []
    · apply List.ne_nil_of_mem (a := c)
      unfold positiveCandidates
      rw [candidatePool_of_no_locations cfg eps gens q hql]
      exact List.mem_filter.mpr
        ⟨hc, decide_eq_true ((chunkScore_pos_iff _ _ _ _).mp hpos)⟩
    · by_cases hf : locFilter cfg eps q = []
      · apply List.ne_nil_of_mem (a := c)
        unfold positiveCandidates
        rw [candidatePool_of_filter_empty cfg eps gens q hf]
        exact List.mem_filter.mpr
          ⟨hc, decide_eq_true ((chunkScore_pos_iff _ _ _ _).mp hpos)⟩
      · obtain ⟨c2, hc2⟩ := List.exists_mem_of_ne_nil _ hf
        have hcpred := List.mem_filter.mp hc2
        have hge := scoreBaseN_ge_ten_of_locMatch cfg q c2
          (by simpa using hcpred.2)
        apply List.ne_nil_of_mem (a := c2)
        unfold positiveCandidates
        rw [candidatePool_of_filter_nonempty cfg eps gens q hql hf]
        exact List.mem_filter.mpr ⟨hc2, decide_eq_true (by omega)⟩
  rw [retrieve_count_of_positive cfg eps gens q h0 h1 hpc]

/-- Witness for C2: the C4 corpus with the query `зона` — the general chunk
scores positively, and the fragment count is 1. -/
theorem claim_C2_witness :
    1 ≤ (retrieveRelevantLore cfg0 [epKordon] [genZona] "зона").2 ∧
    ((mkCtx cfg0 "зона").queryLocations ≠ [] →
      locFilter cfg0 [epKordon] "зона" = [] →
      candidatePool cfg0 [epKordon] [genZona] "зона" =
        [epKordon] ++ [genZona]) :=
  claim_C2 cfg0 [epKordon] [genZona] "зона" (by decide)
    ⟨genZona, by decide, (chunkScore_pos_iff _ _ _ _).mpr (by decide)⟩

theorem retrieve_content_mem (cfg : Config) (eps gens : List Chunk)
    (q : String)
    (h0 : ¬ (eps = [] ∧ gens = []))
    (h1 : (mkCtx cfg q).queryStems ≠ [])
    (hpc : positiveCandidates cfg eps gens q ≠ []) :
    ∃ c ∈ positiveCandidates cfg eps gens q,
      (retrieveRelevantLore cfg eps gens q).1 = c.content := by
  have hsne : scoredChunks cfg eps gens q ≠ [] := by
    rw [scoredChunks_eq_map]
    intro hmap
    exact hpc (List.map_eq_nil_iff.mp hmap)
  have hsortne : sortDesc (scoredChunks cfg eps gens q) ≠ [] := by
    intro hx
    have hlen := length_sortDesc (scoredChunks cfg eps gens q)
    rw [hx] at hlen
    exact hsne (List.length_eq_zero.mp hlen.symm)
  obtain ⟨x, xs, hsort⟩ := List.exists_cons_of_ne_nil hsortne
  have hxmem : x ∈ scoredChunks cfg eps gens q := by
    rw [← mem_sortDesc, hsort]
    exact List.mem_cons_self x xs
  rw [scoredChunks_eq_map] at hxmem
  obtain ⟨c, hcmem, hceq⟩ := List.mem_map.mp hxmem
  cases hceq
  refine ⟨c, hcmem, ?_⟩
  unfold retrieveRelevantLore
  rw [if_neg h0, if_neg h1]
  simp only [if_neg hsne]
  rw [hsort]
  simp only [List.take_succ_cons, List.take_zero]
  rw [if_neg (by simp)]
  simp [intercalate_single]

/-- Claim C3 (corrected), amended statement: when the query's stem set is the
singleton `{t}`, no location is detected, `t` survives the location-word
exclusion, and the query produces no exact important-term matches, then — if
some chunk's stem set contains `t` — the call returns fragment count 1 and a
non-empty context equal verbatim to the content of some chunk whose stem set
contains `t` (the claim's original wording fails both because a location-word
query empties the keyword set and because only the single top-scored chunk is
returned). -/
theorem claim_C3_amended (cfg : Config) (eps gens : List Chunk) (q t : String)
    (hstems : getStemmedWords cfg.stemmer q = [t])
    (hql : (mkCtx cfg q).queryLocations = [])
    (hkw : (mkCtx cfg q).queryKeywords = [t])
    (hT : (mkCtx cfg q).exactTokenMatches = [])
    (hL : (mkCtx cfg q).exactLemmaMatches = [])
    (hchunk : ∃ c ∈ eps ++ gens, t ∈ getStemmedWords cfg.stemmer c.content) :
    (retrieveRelevantLore cfg eps gens q).2 = 1 ∧
    ∃ c ∈ eps ++ gens, t ∈ getStemmedWords cfg.stemmer c.content ∧
      (retrieveRelevantLore cfg eps gens q).1 = c.content := by
  obtain ⟨c0, hc0, hc0t⟩ := hchunk
  have h0 : ¬ (eps = [] ∧ gens = []) := by
    rintro ⟨rfl, rfl⟩
    simp at hc0
  have h1 : (mkCtx cfg q).queryStems ≠ [] := by
    show getStemmedWords cfg.stemmer q ≠ []
    rw [hstems]
    simp
  have hbase : ∀ c : Chunk, scoreBaseN cfg (mkCtx cfg q) c =
      if t ∈ getStemmedWords cfg.stemmer c.content then 2 + t.length
      else 0 := by
    intro c
    unfold scoreBaseN matchedKeywords
    rw [hkw, hT, hL]
    rw [if_neg (by simp)]
    rw [if_neg (by simp [hql])]
    by_cases hmem : t ∈ getStemmedWords cfg.stemmer c.content
    · rw [if_pos hmem]
      simp [List.filter, hmem]
    · rw [if_neg hmem]
      simp [List.filter, hmem]
  have hpool : candidatePool cfg eps gens q = eps ++ gens :=
    candidatePool_of_no_locations cfg eps gens q hql
  have hc0p : c0 ∈ positiveCandidates cfg eps gens q := by
    unfold positiveCandidates
    rw [hpool]
    refine List.mem_filter.mpr ⟨hc0, decide_eq_true ?_⟩
    rw [hbase c0, if_pos hc0t]
    omega
  have hpc : positiveCandidates cfg eps gens q ≠ [] :=
    List.ne_nil_of_mem hc0p
  refine ⟨retrieve_count_of_positive cfg eps gens q h0 h1 hpc, ?_⟩
  obtain ⟨c, hcmem, hcont⟩ := retrieve_content_mem cfg eps gens q h0 h1 hpc
  have hcmem2 := List.mem_filter.mp (by
    unfold positiveCandidates at hcmem
    rw [hpool] at hcmem
    exact hcmem)
  have hct : t ∈ getStemmedWords cfg.stemmer c.content := by
    have hpos := of_decide_eq_true hcmem2.2
    by_contra hmem
    rw [hbase c, if_neg hmem] at hpos
    exact absurd hpos (by omega)
  exact ⟨c, hcmem2.1, hct, hcont⟩

/-- Witness for the amended C3: query `привет` over a corpus with one general
chunk `привет мир`; the call returns that chunk's content with count 1. -/
theorem claim_C3_amended_witness :
    (retrieveRelevantLore cfg0 [] [gPrivet] "привет").2 = 1 ∧
    ∃ c ∈ ([] : List Chunk) ++ [gPrivet],
      "привет" ∈ getStemmedWords cfg0.stemmer c.content ∧
      (retrieveRelevantLore cfg0 [] [gPrivet] "привет").1 = c.content :=
  claim_C3_amended cfg0 [] [gPrivet] "привет" "привет" (by decide) (by decide)
    (by decide) (by decide) (by decide) ⟨gPrivet, by decide, by decide⟩

theorem candidatePool_subset (cfg : Config) (eps gens : List Chunk)
    (q : String) :
    ∀ c ∈ candidatePool cfg eps gens q, c ∈ eps ++ gens := by
  intro c hc
  unfold candidatePool at hc
  simp only [] at hc
  split at hc
  · split at hc
    · exact hc
    · unfold locFilter at hc
      exact List.mem_append_left gens (List.mem_filter.mp hc).1
  · simpa using hc

theorem sep_contains_blank (l : List Char)
    (h : containsSeq FRAGMENT_SEP.data l = true) :
    containsSeq "\n\n".data l = true := by
  rw [containsSeq_iff] at h ⊢
  obtain ⟨u, v, huv⟩ := h
  refine ⟨u, "---\n\n".data ++ v, ?_⟩
  rw [huv]
  have hsep : FRAGMENT_SEP.data = "\n\n".data ++ "---\n\n".data := rfl
  rw [hsep]
  simp

/-- Claim C10 (confirmed): provided every loaded chunk has non-empty content
free of blank lines (which the loader guarantees: it splits files on `\n\n`,
strips each piece and drops empty ones), the fragment count is always 0 or 1,
the context is non-empty exactly when the count is 1, and in that case the
context is verbatim the content of a single corpus chunk and the fragment
separator does not occur in it. -/
theorem claim_C10 (cfg : Config) (eps gens : List Chunk) (q : String)
    (h1 : ∀ c ∈ eps ++ gens, c.content ≠ "")
    (h2 : ∀ c ∈ eps ++ gens, containsSeq "\n\n".data c.content.data = false) :
    ((retrieveRelevantLore cfg eps gens q).2 = 0 ∨
      (retrieveRelevantLore cfg eps gens q).2 = 1) ∧
    ((retrieveRelevantLore cfg eps gens q).1 ≠ "" ↔
      (retrieveRelevantLore cfg eps gens q).2 = 1) ∧
    ((retrieveRelevantLore cfg eps gens q).2 = 1 →
      ∃ c ∈ eps ++ gens, (retrieveRelevantLore cfg eps gens q).1 = c.content ∧
        containsSeq FRAGMENT_SEP.data
          (retrieveRelevantLore cfg eps gens q).1.data = false) := by
  by_cases h0 : eps = [] ∧ gens = []
  · have hr : retrieveRelevantLore cfg eps gens q = ("", 0) := by
      unfold retrieveRelevantLore
      rw [if_pos h0]
    rw [hr]
    simp
  · by_cases hst : (mkCtx cfg q).queryStems = []
    · have hr : retrieveRelevantLore cfg eps gens q = ("", 0) := by
        unfold retrieveRelevantLore
        rw [if_neg h0, if_pos hst]
      rw [hr]
      simp
    · by_cases hpc : positiveCandidates cfg eps gens q = []
      · have hr := retrieve_of_no_positive cfg eps gens q hpc
        rw [hr]
        simp
      · have hcount := retrieve_count_of_positive cfg eps gens q h0 hst hpc
        obtain ⟨c, hcmem, hcont⟩ :=
          retrieve_content_mem cfg eps gens q h0 hst hpc
        have hcpool : c ∈ eps ++ gens := by
          apply candidatePool_subset cfg eps gens q
          exact (List.mem_filter.mp hcmem).1
        refine ⟨Or.inr hcount, ?_, ?_⟩
        · rw [hcount, hcont]
          simp [h1 c hcpool]
        · intro _
          refine ⟨c, hcpool, hcont, ?_⟩
          rw [hcont]
          by_contra hx
          have hx2 := sep_contains_blank c.content.data
            (Bool.not_eq_false _ |>.mp hx)
          rw [h2 c hcpool] at hx2
          exact absurd hx2 (by simp)

/-- Witness for C10: the C4 corpus and query — the count is 1, the context is
the episode chunk's content and contains no fragment separator. -/
theorem claim_C10_witness :
    ((retrieveRelevantLore cfg0 [epKordon] [genZona] "расскажи про Кордон").2 = 0 ∨
      (retrieveRelevantLore cfg0 [epKordon] [genZona] "расскажи про Кордон").2 = 1) ∧
    ((retrieveRelevantLore cfg0 [epKordon] [genZona] "расскажи про Кордон").1 ≠ "" ↔
      (retrieveRelevantLore cfg0 [epKordon] [genZona] "расскажи про Кордон").2 = 1) ∧
    ((retrieveRelevantLore cfg0 [epKordon] [genZona] "расскажи про Кордон").2 = 1 →
      ∃ c ∈ [epKordon] ++ [genZona],
        (retrieveRelevantLore cfg0 [epKordon] [genZona] "расскажи про Кордон").1 =
          c.content ∧
        containsSeq FRAGMENT_SEP.data
          (retrieveRelevantLore cfg0 [epKordon] [genZona]
            "расскажи про Кордон").1.data = false) :=
  claim_C10 cfg0 [epKordon] [genZona] "расскажи про Кордон" (by decide) (by decide)

theorem dictGet_cons {α : Type} (e : String × α) (d : List (String × α))
    (k : String) :
    dictGet (e :: d) k = if e.1 == k then some e.2 else dictGet d k := rfl

theorem dictGet_map_update {α : Type} (d : List (String × α)) (k : String)
    (v : α) (h : d.any (fun p => p.1 == k) = true) :
    dictGet (d.map (fun p => if p.1 == k then (k, v) else p)) k = some v := by
  induction d with
  | nil => simp at h
  | cons e rest ih =>
    simp only [List.map_cons]
    by_cases hk : e.1 = k
    · rw [if_pos (beq_iff_eq.mpr hk), dictGet_cons]
      simp
    · have hh : rest.any (fun p => p.1 == k) = true := by
        rcases List.any_eq_true.mp h with ⟨p, hp, hpk⟩
        rcases List.mem_cons.mp hp with rfl | hpr
        · exact absurd (beq_iff_eq.mp hpk) hk
        · exact List.any_eq_true.mpr ⟨p, hpr, hpk⟩
      rw [if_neg (by simpa using hk), dictGet_cons,
          if_neg (by simpa using hk)]
      exact ih hh

theorem dictGet_map_update_other {α : Type} (d : List (String × α))
    (k k2 : String) (v : α) (h : k2 ≠ k) :
    dictGet (d.map (fun p => if p.1 == k then (k, v) else p)) k2 =
      dictGet d k2 := by
  induction d with
  | nil => rfl
  | cons e rest ih =>
    simp only [List.map_cons]
    by_cases hk : e.1 = k
    · rw [if_pos (beq_iff_eq.mpr hk), dictGet_cons, dictGet_cons,
          if_neg (show ¬ ((k, v).1 == k2) = true by
            simpa using fun hx => h hx.symm),
          if_neg (show ¬ (e.1 == k2) = true by
            rw [hk]
            simpa using fun hx => h hx.symm)]
      exact ih
    · rw [if_neg (by simpa using hk), dictGet_cons, dictGet_cons]
      by_cases hk2 : e.1 = k2
      · rw [if_pos (beq_iff_eq.mpr hk2), if_pos (beq_iff_eq.mpr hk2)]
      · rw [if_neg (by simpa using hk2), if_neg (by simpa using hk2)]
        exact ih

theorem dictGet_append_right {α : Type} (d e : List (String × α)) (k : String)
    (h : d.any (fun p => p.1 == k) = false) :
    dictGet (d ++ e) k = dictGet e k := by
  induction d with
  | nil => rfl
  | cons p rest ih =>
    simp only [List.any_cons, Bool.or_eq_false_iff] at h
    rw [List.cons_append, dictGet_cons, if_neg (by simpa using h.1)]
    exact ih (by simpa using h.2)

theorem dictGet_append_single_other {α : Type} (d : List (String × α))
    (k k2 : String) (v : α) (h : k2 ≠ k) :
    dictGet (d ++ [(k, v)]) k2 = dictGet d k2 := by
  induction d with
  | nil =>
    rw [List.nil_append, dictGet_cons,
        if_neg (show ¬ ((k, v).1 == k2) = true by
          simpa using fun hx => h hx.symm)]
  | cons e rest ih =>
    rw [List.cons_append, dictGet_cons, dictGet_cons]
    by_cases hk2 : e.1 = k2
    · rw [if_pos (beq_iff_eq.mpr hk2), if_pos (beq_iff_eq.mpr hk2)]
    · rw [if_neg (by simpa using hk2), if_neg (by simpa using hk2)]
      exact ih

theorem dictGet_insert_self {α : Type} (d : List (String × α)) (k : String)
    (v : α) : dictGet (dictInsert k v d) k = some v := by
  unfold dictInsert
  split
  · rename_i h
    exact dictGet_map_update d k v h
  · rename_i h
    have hf : d.any (fun p => p.1 == k) = false := by
      cases hany : d.any (fun p => p.1 == k)
      · rfl
      · exact absurd hany h
    rw [dictGet_append_right d [(k, v)] k hf, dictGet_cons]
    simp

theorem dictGet_insert_other {α : Type} (d : List (String × α))
    (k k2 : String) (v : α) (h : k2 ≠ k) :
    dictGet (dictInsert k v d) k2 = dictGet d k2 := by
  unfold dictInsert
  split
  · exact dictGet_map_update_other d k k2 v h
  · exact dictGet_append_single_other d k k2 v h

theorem dictGet_fold_insert_const (L : List String)
    (d0 : List (String × String)) (ck x : String) :
    dictGet (L.foldl (fun d a => dictInsert a ck d) d0) x =
      if x ∈ L then some ck else dictGet d0 x := by
  induction L generalizing d0 with
  | nil => simp
  | cons a L2 ih =>
    simp only [List.foldl_cons]
    rw [ih]
    by_cases hx : x ∈ L2
    · rw [if_pos hx, if_pos (List.mem_cons_of_mem a hx)]
    · rw [if_neg hx]
      by_cases hxa : x = a
      · subst hxa
        rw [if_pos (List.mem_cons_self x L2), dictGet_insert_self]
      · rw [if_neg (by simp [hxa, hx]), dictGet_insert_other d0 a x ck hxa]

theorem entryKeys_of_some (re : String → String × String) (t : String)
    (c : String) (as : List String) (ch : PChar)
    (hp : parseEntryData re t = some (c, as, ch)) :
    entryKeys re t = lowerStr c :: as := by
  unfold entryKeys
  rw [hp]

theorem parseCharacterEntry_state (re : String → String × String)
    (t : String) (st : CharState) (c : String) (as : List String) (ch : PChar)
    (hp : parseEntryData re t = some (c, as, ch)) :
    (∀ a ∈ entryKeys re t,
      dictGet (parseCharacterEntry re t st).aliasIndex a =
        some (lowerStr c)) ∧
    dictGet (parseCharacterEntry re t st).characters (lowerStr c) =
      some ch := by
  unfold parseCharacterEntry
  rw [hp]
  simp only []
  constructor
  · intro a ha
    rw [entryKeys_of_some re t c as ch hp] at ha
    rw [dictGet_fold_insert_const]
    rcases List.mem_cons.mp ha with rfl | has
    · by_cases hin : lowerStr c ∈ as
      · rw [if_pos hin]
      · rw [if_neg hin, dictGet_insert_self]
    · rw [if_pos has]
  · exact dictGet_insert_self _ _ _

theorem parseCharacterEntry_preserve (re : String → String × String)
    (t2 : String) (st : CharState) (a : String)
    (ha : ¬ a ∈ entryKeys re t2) :
    dictGet (parseCharacterEntry re t2 st).aliasIndex a =
      dictGet st.aliasIndex a ∧
    dictGet (parseCharacterEntry re t2 st).characters a =
      dictGet st.characters a := by
  unfold parseCharacterEntry
  cases hp : parseEntryData re t2 with
  | none => exact ⟨rfl, rfl⟩
  | some val =>
    obtain ⟨c, as, ch⟩ := val
    rw [entryKeys_of_some re t2 c as ch hp] at ha
    simp only [List.mem_cons, not_or] at ha
    simp only []
    constructor
    · rw [dictGet_fold_insert_const, if_neg ha.2,
          dictGet_insert_other _ _ _ _ ha.1]
    · exact dictGet_insert_other _ _ _ _ ha.1

theorem parseEntries_preserve (re : String → String × String)
    (ts2 : List String) (st : CharState) (a keyc : String)
    (ha : ∀ t2 ∈ ts2, ¬ a ∈ entryKeys re t2)
    (hc : ∀ t2 ∈ ts2, ¬ keyc ∈ entryKeys re t2) :
    dictGet (ts2.foldl (fun s t => parseCharacterEntry re t s) st).aliasIndex
        a = dictGet st.aliasIndex a ∧
    dictGet (ts2.foldl (fun s t => parseCharacterEntry re t s) st).characters
        keyc = dictGet st.characters keyc := by
  induction ts2 generalizing st with
  | nil => exact ⟨rfl, rfl⟩
  | cons t2 rest ih =>
    simp only [List.foldl_cons]
    have h1 := parseCharacterEntry_preserve re t2 st a
      (ha t2 (List.mem_cons_self t2 rest))
    have h2 := parseCharacterEntry_preserve re t2 st keyc
      (hc t2 (List.mem_cons_self t2 rest))
    have ihh := ih (parseCharacterEntry re t2 st)
      (fun x hx => ha x (List.mem_cons_of_mem t2 hx))
      (fun x hx => hc x (List.mem_cons_of_mem t2 hx))
    exact ⟨ihh.1.trans h1.1, ihh.2.trans h2.2⟩

/-- Claim C8 (corrected), amended statement: alias resolution is symmetric for
an entry none of whose keys (canonical key or aliases) is re-registered by a
later entry: for every name whose lowercased, stripped form is the canonical
key or one of the aliases, `find_character` returns exactly the record stored
for the canonical key.  (The unrestricted claim fails because a later
colliding entry rebinds the alias.) -/
theorem claim_C8_amended (re : String → String × String)
    (ts1 ts2 : List String) (t canonical : String) (aliases : List String)
    (ch : PChar) (v : String)
    (hp : parseEntryData re t = some (canonical, aliases, ch))
    (hdisj : ∀ t2 ∈ ts2, ∀ k ∈ entryKeys re t, ¬ k ∈ entryKeys re t2)
    (hv : pyStrip (lowerStr v) ∈ entryKeys re t) :
    findCharacter (parseEntries re (ts1 ++ t :: ts2)) v = some ch := by
  unfold parseEntries
  rw [List.foldl_append]
  simp only [List.foldl_cons]
  have hstate := parseCharacterEntry_state re t
    (ts1.foldl (fun st x => parseCharacterEntry re x st) ⟨[], []⟩)
    canonical aliases ch hp
  have hck : lowerStr canonical ∈ entryKeys re t := by
    rw [entryKeys_of_some re t canonical aliases ch hp]
    exact List.mem_cons_self _ _
  have hpres := parseEntries_preserve re ts2
    (parseCharacterEntry re t
      (ts1.foldl (fun st x => parseCharacterEntry re x st) ⟨[], []⟩))
    (pyStrip (lowerStr v)) (lowerStr canonical)
    (fun t2 ht2 => hdisj t2 ht2 _ hv)
    (fun t2 ht2 => hdisj t2 ht2 _ hck)
  unfold findCharacter
  rw [hpres.1, hstate.1 _ hv]
  simp only []
  rw [hpres.2, hstate.2]

/-- Witness for the amended C8: one entry
`Сидорович, Сид: торговец`; looking up the alias in a different letter case
(`СИД`) returns the stored record. -/
theorem claim_C8_amended_witness :
    findCharacter (parseEntries relNone ["Сидорович, Сид: торговец"]) "СИД" =
      some ⟨"Сидорович", ["сид"], "торговец", ""⟩ :=
  claim_C8_amended relNone [] [] "Сидорович, Сид: торговец" "Сидорович"
    ["сид"] ⟨"Сидорович", ["сид"], "торговец", ""⟩ "СИД" (by decide)
    (fun t2 ht2 => absurd ht2 (List.not_mem_nil t2)) (by decide)

/-- Claim C8 (corrected), counterexample: the alias `сид` of the first parsed
record is re-registered by a later entry, after which `find_character("Сид")`
returns the later record, not the one stored for the first entry's canonical
key — so the unrestricted claim is false. -/
theorem claim_C8_counterexample :
    parseEntryData relNone "Сидорович, Сид: торговец" =
      some ("Сидорович", ["сид"],
        ⟨"Сидорович", ["сид"], "торговец", ""⟩) ∧
    findCharacter
      (parseEntries relNone
        ["Сидорович, Сид: торговец", "Бандит, Сид: вор."]) "Сид" =
      some ⟨"Бандит", ["сид"], "вор", ""⟩ ∧
    (⟨"Бандит", ["сид"], "вор", ""⟩ : PChar) ≠
      ⟨"Сидорович", ["сид"], "торговец", ""⟩ := by
  refine ⟨by decide, by decide, by decide⟩

/-- Claim C9 (corrected), amended statement: the alias index maps every alias
to the canonical key of the LAST entry that registered it — a later colliding
entry overwrites the earlier mapping (the index is still a map, so an alias
never resolves to two canonical keys at once). -/
theorem claim_C9_amended (re : String → String × String)
    (ts1 ts2 : List String) (t c : String) (as : List String) (ch : PChar)
    (a : String)
    (hp : parseEntryData re t = some (c, as, ch))
    (ha : a ∈ entryKeys re t)
    (hlater : ∀ t2 ∈ ts2, ¬ a ∈ entryKeys re t2) :
    dictGet (parseEntries re (ts1 ++ t :: ts2)).aliasIndex a =
      some (lowerStr c) := by
  unfold parseEntries
  rw [List.foldl_append]
  simp only [List.foldl_cons]
  have hstate := parseCharacterEntry_state re t
    (ts1.foldl (fun st x => parseCharacterEntry re x st) ⟨[], []⟩) c as ch hp
  have hpres := parseEntries_preserve re ts2
    (parseCharacterEntry re t
      (ts1.foldl (fun st x => parseCharacterEntry re x st) ⟨[], []⟩))
    a a hlater hlater
  rw [hpres.1, hstate.1 _ ha]

/-- Witness for the amended C9: with the colliding entries of the
counterexample, the alias resolves to the canonical key of the last
registrant. -/
theorem claim_C9_amended_witness :
    dictGet (parseEntries relNone
      ["Сидорович: торговец", "Бандит, сидорович: вор"]).aliasIndex
      "сидорович" = some "бандит" :=
  claim_C9_amended relNone ["Сидорович: торговец"] []
    "Бандит, сидорович: вор" "Бандит" ["сидорович"]
    ⟨"Бандит", ["сидорович"], "вор", ""⟩ "сидорович" (by decide) (by decide)
    (fun t2 ht2 => absurd ht2 (List.not_mem_nil t2))

/-- Claim C9 (corrected), counterexample: the alias `сидорович` is registered
first as the canonical key of `Сидорович` and then as an alias of the later
entry `Бандит`; the index ends up mapping it to `бандит`, i.e. the LAST
writer wins, contradicting the claimed first-writer-wins policy. -/
theorem claim_C9_counterexample :
    entryKeys relNone "Сидорович: торговец" = ["сидорович"] ∧
    dictGet (parseEntries relNone
      ["Сидорович: торговец", "Бандит, сидорович: вор"]).aliasIndex
      "сидорович" = some "бандит" ∧
    ("бандит" : String) ≠ "сидорович" := by
  refine ⟨by decide, by decide, by decide⟩

theorem splitWsAux_append_space (u v : List Char) (acc : List Char) :
    splitWsAux acc (u ++ ' ' :: v) =
      splitWsAux acc u ++ splitWsAux [] v := by
  induction u generalizing acc with
  | nil =>
    simp only [List.nil_append, splitWsAux]
    rw [if_pos (show pyIsSpace ' ' = true from rfl)]
    by_cases hacc : acc = []
    · rw [if_pos hacc, if_pos hacc]
      simp
    · rw [if_neg hacc, if_neg hacc]
      simp
  | cons c cs ih =>
    simp only [List.cons_append, splitWsAux]
    by_cases hsp : pyIsSpace c = true
    · rw [if_pos hsp, if_pos hsp]
      by_cases hacc : acc = []
      · rw [if_pos hacc, if_pos hacc]
        exact ih []
      · rw [if_neg hacc, if_neg hacc]
        simp only [List.cons_append]
        exact congrArg _ (ih [])
    · rw [if_neg hsp, if_neg hsp]
      exact ih (c :: acc)

theorem data_append_space (a b : String) :
    (a ++ " " ++ b).data = a.data ++ ' ' :: b.data := by
  show (a.data ++ " ".data) ++ b.data = _
  simp

theorem lower_filter_append_space (a b : String) :
    (lowerStr (a ++ " " ++ b)).data.filter
        (fun c => pyIsAlnum c || pyIsSpace c) =
      ((lowerStr a).data.filter (fun c => pyIsAlnum c || pyIsSpace c)) ++
        ' ' :: ((lowerStr b).data.filter
          (fun c => pyIsAlnum c || pyIsSpace c)) := by
  show ((a ++ " " ++ b).data.map pyLower).filter _ =
    ((a.data.map pyLower).filter _) ++ ' ' :: ((b.data.map pyLower).filter _)
  rw [data_append_space, List.map_append, List.map_cons, List.filter_append,
      List.filter_cons]
  rfl

theorem mem_getStemmedWords_append (st : Option (String → String))
    (a b x : String) :
    x ∈ getStemmedWords st (a ++ " " ++ b) ↔
      x ∈ getStemmedWords st a ∨ x ∈ getStemmedWords st b := by
  unfold getStemmedWords
  simp only []
  rw [lower_filter_append_space, splitWsAux_append_space]
  cases st
  · simp only [List.map_append, List.filter_append, List.mem_dedup,
      List.mem_append]
  · simp only [List.map_append, List.filter_append, List.mem_dedup,
      List.mem_append]

theorem getTokens_append (a b : String) :
    getTokens (a ++ " " ++ b) = getTokens a ++ getTokens b := by
  unfold getTokens
  simp only []
  have hmap : (a ++ " " ++ b).data.map
      (fun c => if pyIsAlnum c || pyIsSpace c then pyLower c else ' ') =
      (a.data.map
        (fun c => if pyIsAlnum c || pyIsSpace c then pyLower c else ' ')) ++
      ' ' :: (b.data.map
        (fun c => if pyIsAlnum c || pyIsSpace c then pyLower c else ' ')) := by
    rw [data_append_space, List.map_append, List.map_cons]
    rfl
  rw [hmap, splitWsAux_append_space]
  simp [List.filter_append]

theorem mem_getLemmas_append (morph : Option (String → String))
    (a b x : String) (h : x ∈ getLemmas morph a) :
    x ∈ getLemmas morph (a ++ " " ++ b) := by
  unfold getLemmas at h ⊢
  rw [getTokens_append]
  cases morph
  · simp only [List.mem_dedup, List.mem_append]
    exact Or.inl (by simpa using h)
  · simp only [List.map_append, List.mem_dedup, List.mem_append]
    exact Or.inl (by simpa using h)

theorem optWord_head_append_space (l w2 : List Char) :
    optWord ((l ++ ' ' :: w2).head?) = optWord l.head? := by
  cases l
  · simp [optWord, isWordChar, pyIsAlnum, pyIsAlpha]
  · simp [optWord]

theorem isPrefSeq_append_right (p l x : List Char)
    (h : isPrefSeq p l = true) : isPrefSeq p (l ++ x) = true := by
  rw [isPrefSeq_iff] at h ⊢
  obtain ⟨t, rfl⟩ := h
  exact ⟨t ++ x, by simp⟩

theorem isPrefSeq_length_le (p l : List Char) (h : isPrefSeq p l = true) :
    p.length ≤ l.length := by
  rw [isPrefSeq_iff] at h
  obtain ⟨t, rfl⟩ := h
  simp

theorem wbAt_congr (prev : Option Char) (n1 n2 : Option Char)
    (h : optWord n1 = optWord n2) : wbAt prev n1 = wbAt prev n2 := by
  unfold wbAt
  rw [h]

theorem wwHere_append_space (pat : List Char) (prev : Option Char)
    (t w2 : List Char) (h : wwHere pat prev t = true) :
    wwHere pat prev (t ++ ' ' :: w2) = true := by
  unfold wwHere at h ⊢
  simp only [Bool.and_eq_true] at h ⊢
  obtain ⟨⟨hpre, hb1⟩, hb2⟩ := h
  refine ⟨⟨isPrefSeq_append_right pat t _ hpre, ?_⟩, ?_⟩
  · rw [wbAt_congr prev _ _ (optWord_head_append_space t w2)]
    exact hb1
  · have hlen := isPrefSeq_length_le pat t hpre
    rw [List.drop_append_of_le_length hlen]
    rw [wbAt_congr _ _ _ (optWord_head_append_space (t.drop pat.length) w2)]
    exact hb2

theorem wwSearchAux_append_space (pat : List Char) (prev : Option Char)
    (a w2 : List Char) (h : wwSearchAux pat prev a = true) :
    wwSearchAux pat prev (a ++ ' ' :: w2) = true := by
  induction a generalizing prev with
  | nil =>
    simp only [wwSearchAux] at h
    simp only [List.nil_append, wwSearchAux, Bool.or_eq_true]
    exact Or.inl (wwHere_append_space pat prev [] w2 h)
  | cons c cs ih =>
    simp only [wwSearchAux, Bool.or_eq_true] at h
    simp only [List.cons_append, wwSearchAux, Bool.or_eq_true]
    rcases h with hh | ht
    · exact Or.inl (by
        have := wwHere_append_space pat prev (c :: cs) w2 hh
        simpa using this)
    · exact Or.inr (ih (some c) ht)

theorem wwSearch_append_space (pat a w2 : List Char)
    (h : wwSearch pat a = true) : wwSearch pat (a ++ ' ' :: w2) = true :=
  wwSearchAux_append_space pat none a w2 h

theorem sum_map_filter_mono (l : List String) (p q : String → Bool)
    (h : ∀ x ∈ l, p x = true → q x = true) :
    (((l.filter p).map (fun s => 2 + s.length)).sum : ℕ) ≤
      ((l.filter q).map (fun s => 2 + s.length)).sum := by
  induction l with
  | nil => simp
  | cons a rest ih =>
    have ih2 := ih (fun x hx => h x (List.mem_cons_of_mem a hx))
    cases hp : p a with
    | true =>
      have hq := h a (List.mem_cons_self a rest) hp
      rw [List.filter_cons_of_pos hp, List.filter_cons_of_pos hq]
      simp only [List.map_cons, List.sum_cons]
      omega
    | false =>
      rw [List.filter_cons_of_neg (by simp [hp])]
      cases hq : q a with
      | true =>
        rw [List.filter_cons_of_pos hq]
        simp only [List.map_cons, List.sum_cons]
        omega
      | false =>
        rw [List.filter_cons_of_neg (by simp [hq])]
        exact ih2

theorem length_filter_mono (l : List String) (p q : String → Bool)
    (h : ∀ x ∈ l, p x = true → q x = true) :
    (l.filter p).length ≤ (l.filter q).length := by
  induction l with
  | nil => simp
  | cons a rest ih =>
    have ih2 := ih (fun x hx => h x (List.mem_cons_of_mem a hx))
    cases hp : p a with
    | true =>
      have hq := h a (List.mem_cons_self a rest) hp
      rw [List.filter_cons_of_pos hp, List.filter_cons_of_pos hq]
      simp only [List.length_cons]
      omega
    | false =>
      rw [List.filter_cons_of_neg (by simp [hp])]
      cases hq : q a with
      | true =>
        rw [List.filter_cons_of_pos hq]
        simp only [List.length_cons]
        omega
      | false =>
        rw [List.filter_cons_of_neg (by simp [hq])]
        exact ih2

/-- Claim C5 (confirmed): scoring is monotonic in keyword overlap — appending
one extra term to a chunk's text (all else equal, with the lemma field
recomputed by the loader and the same episodic status) never decreases its
score; in particular this holds when the extra term's stem lies in the
query's keyword set. -/
theorem claim_C5 (cfg : Config) (eps : List Chunk) (q : String)
    (c1 c2 : Chunk) (w s : String)
    (hcont : c2.content = c1.content ++ " " ++ w)
    (hloc : c2.locations = c1.locations)
    (hlem1 : c1.lemmas = getLemmas cfg.morph c1.content)
    (hlem2 : c2.lemmas = getLemmas cfg.morph c2.content)
    (hep : isEpisodeChunk eps c1 = isEpisodeChunk eps c2)
    (_hws : getStemmedWords cfg.stemmer w = [s])
    (_hs : s ∈ (mkCtx cfg q).queryKeywords) :
    chunkScore cfg eps (mkCtx cfg q) c1 ≤
      chunkScore cfg eps (mkCtx cfg q) c2 := by
  have hstem : ∀ x : String, x ∈ getStemmedWords cfg.stemmer c1.content →
      x ∈ getStemmedWords cfg.stemmer c2.content := by
    intro x hx
    rw [hcont]
    exact (mem_getStemmedWords_append _ _ _ _).mpr (Or.inl hx)
  have hsum := sum_map_filter_mono (mkCtx cfg q).queryKeywords
    (fun x => decide (x ∈ getStemmedWords cfg.stemmer c1.content))
    (fun x => decide (x ∈ getStemmedWords cfg.stemmer c2.content))
    (fun x _ hx => decide_eq_true (hstem x (of_decide_eq_true hx)))
  have hcnt := length_filter_mono (mkCtx cfg q).queryKeywords
    (fun x => decide (x ∈ getStemmedWords cfg.stemmer c1.content))
    (fun x => decide (x ∈ getStemmedWords cfg.stemmer c2.content))
    (fun x _ hx => decide_eq_true (hstem x (of_decide_eq_true hx)))
  have hdata : (lowerStr c2.content).data =
      (lowerStr c1.content).data ++ ' ' :: (lowerStr w).data := by
    rw [hcont]
    show ((c1.content ++ " " ++ w).data.map pyLower) = _
    rw [data_append_space, List.map_append, List.map_cons]
    rfl
  have hww := length_filter_mono (mkCtx cfg q).exactTokenMatches
    (fun e => wwSearch e.data (lowerStr c1.content).data)
    (fun e => wwSearch e.data (lowerStr c2.content).data)
    (fun e _ hw => by
      rw [hdata]
      exact wwSearch_append_space _ _ _ hw)
  have hlemcnt := length_filter_mono (mkCtx cfg q).exactLemmaMatches
    (fun x => decide (x ∈ c1.lemmas))
    (fun x => decide (x ∈ c2.lemmas))
    (fun x _ hx => by
      apply decide_eq_true
      rw [hlem2, hcont]
      exact mem_getLemmas_append cfg.morph c1.content w x
        (hlem1 ▸ of_decide_eq_true hx))
  have hB : scoreBaseN cfg (mkCtx cfg q) c1 ≤
      scoreBaseN cfg (mkCtx cfg q) c2 := by
    unfold scoreBaseN matchedKeywords
    rw [hloc]
    apply Nat.add_le_add
    apply Nat.add_le_add
    · exact hsum
    · split
      · exact Nat.add_le_add (Nat.mul_le_mul_left 20 hww)
          (Nat.mul_le_mul_left 20 hlemcnt)
      · exact le_refl 0
    · exact le_refl _
  have hcov : coverageOf cfg (mkCtx cfg q) c1 ≤
      coverageOf cfg (mkCtx cfg q) c2 := by
    unfold coverageOf matchedKeywords
    split
    · rename_i hk
      have hkpos : (0 : ℚ) < ((mkCtx cfg q).queryKeywords.length : ℚ) := by
        have := List.length_pos.mpr hk
        exact_mod_cast this
      rw [div_le_div_iff_of_pos_right hkpos]
      exact_mod_cast hcnt
    · exact le_refl 0
  have hpre : chunkScorePre cfg (mkCtx cfg q) c1 ≤
      chunkScorePre cfg (mkCtx cfg q) c2 := by
    unfold chunkScorePre
    apply mul_le_mul (by exact_mod_cast hB) (by linarith)
      (le_of_lt (one_add_coverage_pos cfg (mkCtx cfg q) c1))
      (Nat.cast_nonneg _)
  unfold chunkScore
  rw [hep]
  by_cases he : isEpisodeChunk eps c2 = true
  · rw [if_pos he, if_pos he]
    exact mul_le_mul_of_nonneg_right hpre (by norm_num)
  · rw [if_neg he, if_neg he]
    exact hpre

/-- Witness for C5: appending the query term `привет` to the chunk
`привет мир` does not decrease its score for the query `привет`. -/
theorem claim_C5_witness :
    chunkScore cfg0 [] (mkCtx cfg0 "привет") gPrivet ≤
      chunkScore cfg0 [] (mkCtx cfg0 "привет")
        ⟨"g.txt", "привет мир" ++ " " ++ "привет", [],
         getLemmas none ("привет мир" ++ " " ++ "привет")⟩ :=
  claim_C5 cfg0 [] "привет" gPrivet
    ⟨"g.txt", "привет мир" ++ " " ++ "привет", [],
     getLemmas none ("привет мир" ++ " " ++ "привет")⟩ "привет" "привет"
    rfl rfl rfl rfl (by decide) (by decide) (by decide)

theorem getLast_reverse_eq_head (acc : List Char) :
    acc.reverse.getLast? = acc.head? := by
  cases acc
  · rfl
  · simp

theorem no_sep_append_one (xs : List Char) (c : Char)
    (h : containsSeq "\n\n".data xs = false)
    (hb : ¬ (xs.getLast? = some '\n' ∧ c = '\n')) :
    containsSeq "\n\n".data (xs ++ [c]) = false := by
  by_contra hx
  have hx2 := (Bool.not_eq_false _).mp hx
  rw [containsSeq_iff] at hx2
  obtain ⟨u, v, huv⟩ := hx2
  rcases List.eq_nil_or_concat v with rfl | ⟨v2, d, rfl⟩
  · have huv2 : xs ++ [c] = (u ++ ['\n']) ++ ['\n'] := by
      rw [huv]
      simp [show ("\n\n".data : List Char) = ['\n', '\n'] from rfl]
    obtain ⟨hxs, hc⟩ := List.append_inj' huv2 rfl
    apply hb
    constructor
    · rw [hxs]
      simp
    · simpa using hc
  · have huv2 : xs ++ [c] = (u ++ "\n\n".data ++ v2) ++ [d] := by
      rw [huv]
      simp
    obtain ⟨hxs, _⟩ := List.append_inj' huv2 rfl
    have : containsSeq "\n\n".data xs = true := by
      rw [containsSeq_iff]
      exact ⟨u, v2, hxs⟩
    rw [h] at this
    cases this

theorem splitParAux_no_sep (n : ℕ) : ∀ (l acc : List Char),
    l.length ≤ n →
    containsSeq "\n\n".data acc.reverse = false →
    (acc.head? = some '\n' → l.head? ≠ some '\n') →
    ∀ p ∈ splitParAux acc l, containsSeq "\n\n".data p = false := by
  induction n with
  | zero =>
    intro l acc hlen hacc _ p hp
    have hl : l = [] := List.length_eq_zero.mp (Nat.le_zero.mp hlen)
    subst hl
    simp only [splitParAux, List.mem_singleton] at hp
    subst hp
    exact hacc
  | succ n ih =>
    intro l acc hlen hacc hbd p hp
    rcases l with _ | ⟨c, _ | ⟨c2, cs⟩⟩
    · simp only [splitParAux, List.mem_singleton] at hp
      subst hp
      exact hacc
    · simp only [splitParAux, List.mem_singleton] at hp
      subst hp
      rw [List.reverse_cons]
      apply no_sep_append_one acc.reverse c hacc
      rintro ⟨hlast, rfl⟩
      rw [getLast_reverse_eq_head] at hlast
      exact hbd hlast rfl
    · simp only [splitParAux] at hp
      by_cases hsep : c = '\n' ∧ c2 = '\n'
      · rw [if_pos hsep] at hp
        rcases List.mem_cons.mp hp with rfl | hp2
        · exact hacc
        · apply ih cs []
          · simp at hlen
            omega
          · decide
          · intro h
            simp at h
          · exact hp2
      · rw [if_neg hsep] at hp
        apply ih (c2 :: cs) (c :: acc)
        · simp at hlen ⊢
          omega
        · rw [List.reverse_cons]
          apply no_sep_append_one acc.reverse c hacc
          rintro ⟨hlast, rfl⟩
          rw [getLast_reverse_eq_head] at hlast
          exact hbd hlast rfl
        · intro hc
          simp only [List.head?_cons, Option.some.injEq] at hc ⊢
          intro hc2
          exact hsep ⟨hc, Option.some.inj hc2⟩
        · exact hp

theorem pyStrip_infix (s : String) :
    ∃ u t, s.data = u ++ (pyStrip s).data ++ t := by
  refine ⟨s.data.takeWhile pyIsSpace,
    ((s.data.dropWhile pyIsSpace).reverse.takeWhile pyIsSpace).reverse, ?_⟩
  show s.data = _ ++
    ((s.data.dropWhile pyIsSpace).reverse.dropWhile pyIsSpace).reverse ++ _
  have h3 : s.data.dropWhile pyIsSpace =
      ((s.data.dropWhile pyIsSpace).reverse.dropWhile pyIsSpace).reverse ++
      ((s.data.dropWhile pyIsSpace).reverse.takeWhile pyIsSpace).reverse := by
    conv_lhs => rw [← List.reverse_reverse (s.data.dropWhile pyIsSpace),
      ← List.takeWhile_append_dropWhile
        (p := pyIsSpace) (l := (s.data.dropWhile pyIsSpace).reverse)]
    rw [List.reverse_append]
  conv_lhs => rw [← List.takeWhile_append_dropWhile
    (p := pyIsSpace) (l := s.data), h3]
  rw [List.append_assoc]

theorem splitChunks_sound (content : String) :
    ∀ ch ∈ splitChunks content,
      ch ≠ "" ∧ containsSeq "\n\n".data ch.data = false := by
  intro ch hch
  unfold splitChunks at hch
  have hfil := List.mem_filter.mp hch
  refine ⟨by simpa using hfil.2, ?_⟩
  obtain ⟨p, hp, hpe⟩ := List.mem_map.mp hfil.1
  subst hpe
  have hnos := splitParAux_no_sep content.data.length content.data []
    (le_refl _) (by decide) (by intro h; simp at h) p hp
  obtain ⟨u, t, hut⟩ := pyStrip_infix ⟨p⟩
  by_contra hx
  have hx2 := (Bool.not_eq_false _).mp hx
  have hcp : containsSeq "\n\n".data p = true := by
    rw [containsSeq_iff] at hx2 ⊢
    obtain ⟨a, b, hab⟩ := hx2
    refine ⟨u ++ a, b ++ t, ?_⟩
    have hpp : p = u ++ (pyStrip ⟨p⟩).data ++ t := hut
    rw [hpp, hab]
    simp
  rw [hnos] at hcp
  cases hcp
